import Mathlib

/-!
Verification of the `update-tailwind-globs` sync generator
(`packages/tailwind-sync-plugin`, file `update-tailwind-globs.ts`).

Documents are embedded as `List Char` (JS strings).  The regex-based
operations of the source are embedded as executable functions on
character lists:

* `findPos` / `findSub` model `String.prototype.match` / `indexOf`
  (leftmost match position);
* `blockMatch` models the non-greedy block regex
  `START[\s\S]*?END` (first start marker, then first end marker after it);
* `stripLegacy` models the global replace of
  `/\n@source\s+["'][^"']*packages\/[^"']+["'];/g` by the empty string;
* `matchesTailwindAt` / `matchesAnyImportAt` model the two import
  regexes used to pick the insertion anchor;
* `mergeText` is the pure text part of `updateSourceDirectives`
  (reading the current content and writing back is `updateSourceDirectives`
  below, over an association-list file tree);
* `collectLoop` / `collectDependencies` model the BFS dependency
  collector; the while-loop is embedded with explicit fuel, and
  `requiredFuel` is the loop bound proved sufficient below.
-/

namespace NxTailwindSync

/-! ### Basic string machinery -/

/-- Does `pat` occur at the very beginning of `t`? -/
def startsWithL : List Char → List Char → Bool
  | [], _ => true
  | _ :: _, [] => false
  | p :: ps, c :: cs => p == c && startsWithL ps cs

/-- Leftmost position at which the predicate `f` holds on the suffix
starting there (the scan model of a JS regex search). -/
def findPos (f : List Char → Bool) : List Char → Option Nat
  | [] => if f [] then some 0 else none
  | c :: rest => if f (c :: rest) then some 0 else (findPos f rest).map (· + 1)

/-- Leftmost occurrence position of `pat` in `t` (JS `indexOf` / `match`). -/
def findSub (pat : List Char) (t : List Char) : Option Nat :=
  findPos (fun s => startsWithL pat s) t

/-- JS `String.prototype.includes`. -/
def containsSub (pat : List Char) (t : List Char) : Bool :=
  (findSub pat t).isSome

/-- Number of positions of `t` at which `pat` occurs (overlaps counted). -/
def occCount (pat : List Char) : List Char → Nat
  | [] => if startsWithL pat [] then 1 else 0
  | c :: rest => (if startsWithL pat (c :: rest) then 1 else 0) + occCount pat rest

/-- The last `n` characters of `l`. -/
def takeLast (n : Nat) (l : List Char) : List Char := l.drop (l.length - n)

/-- Lexicographic comparison of character lists by code point; this is the
default JS `Array.prototype.sort` comparison on the rendered strings. -/
def lexLe : List Char → List Char → Bool
  | [], _ => true
  | _ :: _, [] => false
  | a :: as, b :: bs => if a < b then true else if b < a then false else lexLe as bs

/-- `'\n'`-join of a list of lines (JS `Array.prototype.join('\n')`). -/
def joinNl : List (List Char) → List Char
  | [] => []
  | [x] => x
  | x :: xs => x ++ '\n' :: joinNl xs

/-! ### Markers (source lines 11-12) -/

def STARTl : List Char := "/* nx-tailwind-sources:start */".toList

def ENDl : List Char := "/* nx-tailwind-sources:end */".toList

/-! ### The legacy-directive migration strip (source lines 213-216) -/

/-- JS `\s` on the characters that can appear here (ASCII whitespace plus
NBSP and BOM; other Unicode space separators are not modelled). -/
def isWsChar (c : Char) : Bool :=
  c == ' ' || c == '\t' || c == '\n' || c == '\r' || c == '\x0b' ||
    c == '\x0c' || c == '\u00A0' || c == '\uFEFF'

def isQuoteChar (c : Char) : Bool := c == '"' || c == '\''

/-- Match of `/\n@source\s+["'][^"']*packages\/[^"']+["'];/` at the head of
`l`, returning the match length.  The greedy character-class runs are the
maximal runs (the classes exclude the characters that must follow, so no
backtracking into them is possible), and `[^"']*packages\/[^"']+` holds of
the maximal non-quote run iff `packages/` occurs in it ending at least one
character before the run's end. -/
def matchLegacyAt (l : List Char) : Option Nat :=
  if startsWithL ('\n' :: "@source".toList) l then
    let r1 := l.drop 8
    let k := (r1.takeWhile isWsChar).length
    if k = 0 then none else
    match r1.drop k with
    | q :: r2 =>
      if isQuoteChar q then
        let m := (r2.takeWhile (fun c => !(isQuoteChar c))).length
        if containsSub "packages/".toList (r2.take (m - 1)) then
          match r2.drop m with
          | q2 :: r3 =>
            if isQuoteChar q2 then
              if startsWithL [';'] r3 then some (11 + k + m) else none
            else none
          | [] => none
        else none
      else none
    | [] => none
  else none

/-- One left-to-right pass removing every (non-overlapping) legacy match, as
JS global `replace` with the empty replacement does; the fuel argument is
the length of the list, enough since every step consumes at least one
character. -/
def stripLegacyFuel : Nat → List Char → List Char
  | 0, l => l
  | _ + 1, [] => []
  | fuel + 1, c :: rest =>
    match matchLegacyAt (c :: rest) with
    | some n => stripLegacyFuel fuel ((c :: rest).drop n)
    | none => c :: stripLegacyFuel fuel rest

def stripLegacy (l : List Char) : List Char := stripLegacyFuel l.length l

/-! ### The two import-anchor regexes (source lines 218-226) -/

/-- The optional `(\s+source\([^)]*\))?;` part after the closing quote of
the tailwind import: either the modifier group followed by `;`, or `;`
directly. -/
def tailwindAfterQuote (r : List Char) : Bool :=
  (let w := (r.takeWhile isWsChar).length
   decide (0 < w) &&
   (let r5 := r.drop w
    startsWithL "source(".toList r5 &&
    (let r6 := r5.drop 7
     let n := (r6.takeWhile (fun c => !(c == ')'))).length
     match r6.drop n with
     | c :: r7 => c == ')' && startsWithL [';'] r7
     | [] => false)))
  || startsWithL [';'] r

/-- Match of `/@import\s+['"]tailwindcss[^'"]*['"](\s+source\([^)]*\))?;/`
at the head of `l`. -/
def matchesTailwindAt (l : List Char) : Bool :=
  startsWithL "@import".toList l &&
  (let r1 := l.drop 7
   let k := (r1.takeWhile isWsChar).length
   decide (0 < k) &&
   match r1.drop k with
   | q :: r2 =>
     isQuoteChar q && startsWithL "tailwindcss".toList r2 &&
     (let r3 := r2.drop 11
      let m := (r3.takeWhile (fun c => !(isQuoteChar c))).length
      match r3.drop m with
      | q2 :: r4 => isQuoteChar q2 && tailwindAfterQuote r4
      | [] => false)
   | [] => false)

/-- Match of `/@import\s+['"][^'"]+['"];/` at the head of `l`. -/
def matchesAnyImportAt (l : List Char) : Bool :=
  startsWithL "@import".toList l &&
  (let r1 := l.drop 7
   let k := (r1.takeWhile isWsChar).length
   decide (0 < k) &&
   match r1.drop k with
   | q :: r2 =>
     isQuoteChar q &&
     (let m := (r2.takeWhile (fun c => !(isQuoteChar c))).length
      decide (0 < m) &&
      match r2.drop m with
      | q2 :: r3 => isQuoteChar q2 && startsWithL [';'] r3
      | [] => false)
   | [] => false)

/-- Index of the insertion anchor: the first tailwind import if any,
otherwise the first generic import (source line 226,
`tailwindImportMatch || anyImportMatch`; only `.index` is used). -/
def findImport (l : List Char) : Option Nat :=
  match findPos matchesTailwindAt l with
  | some i => some i
  | none => findPos matchesAnyImportAt l

/-! ### The managed block and the merge (source lines 184-242) -/

/-- `[START_MARKER, ...sourceDirectives, END_MARKER].join('\n')`. -/
def managedBlock (dirs : List (List Char)) : List Char :=
  joinNl (STARTl :: (dirs ++ [ENDl]))

/-- First match of the non-greedy regex `START[\s\S]*?END`: the pair of the
match's start index and end index (one past the final character).  The
leftmost match starts at the first occurrence of the start marker and runs
to the end of the first occurrence of the end marker after it. -/
def blockMatch (t : List Char) : Option (Nat × Nat) :=
  match findSub STARTl t with
  | none => none
  | some i =>
    match findSub ENDl (t.drop (i + STARTl.length)) with
    | none => none
    | some m => some (i, i + STARTl.length + m + ENDl.length)

/-- `importEndIndex` (source line 231): `indexOf('\n', importMatch.index) + 1`,
which is `0` when no newline exists at or after the match start. -/
def importEnd (cleaned : List Char) (idx : Nat) : Nat :=
  match findSub ['\n'] (cleaned.drop idx) with
  | some n => idx + n + 1
  | none => 0

/-- The pure text transformation of `updateSourceDirectives` (source lines
184-242), given the already rendered and sorted directive list: returns the
new content and the changed flag.  In the markers-present branch a failed
block match makes `existingBlock` the empty string (never equal to the
non-empty candidate block) and the subsequent `replace` a no-op, so the
original text is written back with `true`. -/
def mergeText (t : List Char) (dirs : List (List Char)) : List Char × Bool :=
  let mb := managedBlock dirs
  if containsSub STARTl t && containsSub ENDl t then
    match blockMatch t with
    | some (i, j) =>
      if (t.drop i).take (j - i) = mb then (t, false)
      else (t.take i ++ mb ++ t.drop j, true)
    | none => (t, true)
  else
    let cleaned := stripLegacy t
    match findImport cleaned with
    | some idx =>
      let e := importEnd cleaned idx
      (cleaned.take e ++ '\n' :: (mb ++ '\n' :: cleaned.drop e), true)
    | none => (mb ++ '\n' :: '\n' :: cleaned, true)

/-! ### Project graph and the dependency collector (source lines 130-152) -/

structure ProjectNodeData where
  root : String
  deriving DecidableEq

structure ProjectNode where
  name : String
  data : ProjectNodeData
  deriving DecidableEq

structure DependencyEdge where
  source : String
  target : String
  deriving DecidableEq

/-- The externally supplied project graph: node mapping and adjacency. -/
structure ProjectGraph where
  nodes : List (String × ProjectNode)
  dependencies : List (String × List DependencyEdge)

/-- `projectGraph.dependencies[current] || []`. -/
def depsOf (g : ProjectGraph) (n : String) : List DependencyEdge :=
  (List.lookup n g.dependencies).getD []

/-- JS `Set.prototype.add`: keep first insertion, append new elements. -/
def addUnique (x : String) (l : List String) : List String :=
  if x ∈ l then l else l ++ [x]

/-- The BFS worklist of `collectDependencies`, with explicit fuel for the
while-loop.  One iteration pops `current`; a falsy (empty) name or an
already visited name is skipped, otherwise every outgoing edge's target is
added to the result set and pushed on the queue. -/
def collectLoop (g : ProjectGraph) :
    Nat → List String → List String → List String → List String
  | 0, _, _, deps => deps
  | _ + 1, [], _, deps => deps
  | fuel + 1, current :: rest, visited, deps =>
    if current = "" then collectLoop g fuel rest visited deps
    else if current ∈ visited then collectLoop g fuel rest visited deps
    else
      let out := depsOf g current
      collectLoop g fuel (rest ++ out.map (·.target)) (current :: visited)
        (out.foldl (fun acc e => addUnique e.target acc) deps)

/-- All source names that have an adjacency entry, once each. -/
def depSources (g : ProjectGraph) : List String :=
  (g.dependencies.map (·.1)).dedup

/-- Upper bound on the remaining loop iterations: queue length plus the
out-degrees of the not yet visited adjacency sources. -/
def requiredFuel (g : ProjectGraph) (q v : List String) : Nat :=
  q.length +
    (((depSources g).filter (fun n => ¬ n ∈ v)).map
      (fun n => (depsOf g n).length)).sum

/-- `collectDependencies(projectName, projectGraph)`. -/
def collectDependencies (projectName : String) (g : ProjectGraph) : List String :=
  collectLoop g (requiredFuel g [projectName] []) [projectName] [] []

/-- All targets of all edges of the graph. -/
def allTargets (g : ProjectGraph) : List String :=
  g.dependencies.foldr (fun p acc => p.2.map (·.target) ++ acc) []

/-! ### Directive generation (source lines 165-179) -/

/-- Segments of a slash-separated path, ignoring empty and `.` segments. -/
def pathSegs (s : String) : List String :=
  (s.splitOn "/").filter (fun x => x ≠ "" && x ≠ ".")

def relSegs : List String → List String → List String
  | f :: fs, t :: ts =>
    if f = t then relSegs fs ts else (f :: fs).map (fun _ => "..") ++ (t :: ts)
  | [], ts => ts
  | fs, [] => fs.map (fun _ => "..")

/-- Modelled from the spec: the external `path.relative` collaborator
(§6, "standard relative-path resolution", forward slashes, `../` segments
as needed, no leading `./`); the Node implementation is not part of this
repository. -/
def relativePath (fromDir toDir : String) : String :=
  String.intercalate "/" (relSegs (pathSegs fromDir) (pathSegs toDir))

/-- Modelled from the spec: the external `path.dirname` collaborator (the
target file's directory, §4.3); the Node implementation is not part of
this repository. -/
def dirnameStr (p : String) : String :=
  match findSub ['/'] p.toList.reverse with
  | some i => String.mk (p.toList.take (p.length - 1 - i))
  | none => "."

/-- One iteration of the directive-rendering loop (source lines 169-176):
a dependency whose node is missing or has a falsy root renders nothing. -/
def renderOne (g : ProjectGraph) (cssDir : String) (dep : String) :
    Option (List Char) :=
  match List.lookup dep g.nodes with
  | some node =>
    if node.data.root ≠ "" then
      some ("@source \"" ++ relativePath cssDir node.data.root ++ "\";").toList
    else none
  | none => none

/-- Rendered directives of a dependency list, sorted (source line 179,
`sourceDirectives.sort()`). -/
def renderDirectives (g : ProjectGraph) (cssDir : String)
    (deps : List String) : List (List Char) :=
  (deps.filterMap (renderOne g cssDir)).mergeSort lexLe

/-! ### The file tree and the full operation (source lines 157-242) -/

/-- The virtual file abstraction: newest write first, `read` is the first
association found. -/
def treeRead (tree : List (String × List Char)) (p : String) :
    Option (List Char) :=
  List.lookup p tree

def treeWrite (tree : List (String × List Char)) (p : String)
    (c : List Char) : List (String × List Char) :=
  (p, c) :: tree

/-- `updateSourceDirectives(tree, projectName, cssFilePath, projectGraph)`:
collect the dependencies, render and sort the directives, read the current
content (missing content read as empty), merge, and write only when
changed.  Returns the tree and the changed flag. -/
def updateSourceDirectives (tree : List (String × List Char))
    (projectName : String) (cssFilePath : String) (g : ProjectGraph) :
    List (String × List Char) × Bool :=
  let deps := collectDependencies projectName g
  let dirs := renderDirectives g (dirnameStr cssFilePath) deps
  let current := (treeRead tree cssFilePath).getD []
  let r := mergeText current dirs
  if r.2 then (treeWrite tree cssFilePath r.1, true) else (tree, false)

/-! ### Lemmas on `startsWithL` -/

theorem startsWithL_iff (p t : List Char) :
    startsWithL p t = true ↔ t.take p.length = p := by
  induction p generalizing t with
  | nil => simp [startsWithL]
  | cons a as ih =>
    cases t with
    | nil => simp [startsWithL]
    | cons c cs =>
      simp only [startsWithL, List.length_cons, List.take_succ_cons,
        Bool.and_eq_true, beq_iff_eq, List.cons.injEq, ih]
      constructor
      · rintro ⟨h1, h2⟩; exact ⟨h1.symm, h2⟩
      · rintro ⟨h1, h2⟩; exact ⟨h1.symm, h2⟩

theorem startsWithL_length {p t : List Char} (h : startsWithL p t = true) :
    p.length ≤ t.length := by
  have h' := (startsWithL_iff p t).1 h
  have hl := congrArg List.length h'
  simp only [List.length_take] at hl
  omega

theorem startsWithL_self (p : List Char) : startsWithL p p = true := by
  rw [startsWithL_iff, List.take_length]

theorem startsWithL_append_left {p t : List Char} (u : List Char)
    (h : startsWithL p t = true) : startsWithL p (t ++ u) = true := by
  have hle := startsWithL_length h
  rw [startsWithL_iff] at h ⊢
  rw [List.take_append_eq_append_take, Nat.sub_eq_zero_of_le hle,
    List.take_zero, List.append_nil, h]

theorem startsWithL_append_elim {p t u : List Char} (hle : p.length ≤ t.length)
    (h : startsWithL p (t ++ u) = true) : startsWithL p t = true := by
  rw [startsWithL_iff] at h ⊢
  rwa [List.take_append_eq_append_take, Nat.sub_eq_zero_of_le hle,
    List.take_zero, List.append_nil] at h

theorem startsWithL_split {p t u : List Char} (hlt : t.length < p.length)
    (h : startsWithL p (t ++ u) = true) :
    p.take t.length = t ∧ startsWithL (p.drop t.length) u = true := by
  rw [startsWithL_iff] at h
  rw [List.take_append_eq_append_take, List.take_of_length_le (Nat.le_of_lt hlt)] at h
  constructor
  · rw [← h, List.take_append_eq_append_take, List.take_length, Nat.sub_self,
      List.take_zero, List.append_nil]
  · rw [startsWithL_iff]
    have hd := congrArg (List.drop t.length) h
    rw [List.drop_append_eq_append_drop, List.drop_of_length_le (Nat.le_refl _),
      Nat.sub_self, List.drop_zero, List.nil_append] at hd
    have hlen : (p.drop t.length).length = p.length - t.length := by
      simp [List.length_drop]
    rw [hlen, ← hd]

theorem startsWithL_take_elim {p x : List Char} {n : Nat}
    (h : startsWithL p (x.take n) = true) : startsWithL p x = true := by
  rw [startsWithL_iff] at h ⊢
  rw [List.take_take] at h
  have hl := congrArg List.length h
  simp only [List.length_take] at hl
  have h1 : p.length ≤ n := by omega
  have h2 : min p.length n = p.length := Nat.min_eq_left h1
  rwa [h2] at h

theorem mem_of_startsWithL_head {p t : List Char} {c : Char} (hp : p ≠ [])
    (h : startsWithL p (c :: t) = true) : c ∈ p := by
  cases p with
  | nil => exact absurd rfl hp
  | cons a as =>
    simp only [startsWithL, Bool.and_eq_true, beq_iff_eq] at h
    rw [h.1]
    exact List.mem_cons_self _ _

theorem startsWithL_nil_false {p : List Char} (hp : p ≠ []) :
    startsWithL p [] = false := by
  cases p with
  | nil => exact absurd rfl hp
  | cons a as => rfl

theorem startsWithL_cons_same {p t : List Char} {c : Char} :
    startsWithL (c :: p) (c :: t) = startsWithL p t := by
  simp [startsWithL]

/-! ### Lemmas on `findPos` -/

theorem findPos_spec {f : List Char → Bool} {t : List Char} {i : Nat}
    (h : findPos f t = some i) :
    f (t.drop i) = true ∧ ∀ j < i, f (t.drop j) = false := by
  induction t generalizing i with
  | nil =>
    unfold findPos at h
    by_cases hf : f []
    · simp [hf] at h
      subst h
      exact ⟨hf, by omega⟩
    · simp [hf] at h
  | cons c rest ih =>
    unfold findPos at h
    by_cases hf : f (c :: rest)
    · simp [hf] at h
      subst h
      exact ⟨hf, by omega⟩
    · simp only [hf, Bool.false_eq_true, if_false, Option.map_eq_some'] at h
      obtain ⟨i', hi', rfl⟩ := h
      obtain ⟨h1, h2⟩ := ih hi'
      refine ⟨h1, ?_⟩
      intro j hj
      cases j with
      | zero => simpa using hf
      | succ j' => exact h2 j' (by omega)

theorem findPos_none {f : List Char → Bool} {t : List Char}
    (h : findPos f t = none) : ∀ j, f (t.drop j) = false := by
  induction t with
  | nil =>
    intro j
    unfold findPos at h
    by_cases hf : f []
    · simp [hf] at h
    · simpa using hf
  | cons c rest ih =>
    intro j
    unfold findPos at h
    by_cases hf : f (c :: rest)
    · simp [hf] at h
    · simp only [hf, Bool.false_eq_true, if_false, Option.map_eq_none'] at h
      cases j with
      | zero => simpa using hf
      | succ j' => exact ih h j'

theorem findPos_le {f : List Char → Bool} {t : List Char} {i : Nat}
    (h : findPos f t = some i) : i ≤ t.length := by
  induction t generalizing i with
  | nil =>
    unfold findPos at h
    by_cases hf : f []
    · simp [hf] at h; omega
    · simp [hf] at h
  | cons c rest ih =>
    unfold findPos at h
    by_cases hf : f (c :: rest)
    · simp [hf] at h; omega
    · simp only [hf, Bool.false_eq_true, if_false, Option.map_eq_some'] at h
      obtain ⟨i', hi', rfl⟩ := h
      have := ih hi'
      simp only [List.length_cons]
      omega

theorem findPos_isSome {f : List Char → Bool} {t : List Char} {j : Nat}
    (h : f (t.drop j) = true) : (findPos f t).isSome = true := by
  cases hf : findPos f t with
  | none => rw [findPos_none hf j] at h; exact absurd h (by simp)
  | some i => rfl

theorem findPos_eq_some {f : List Char → Bool} {t : List Char} {i : Nat}
    (h1 : f (t.drop i) = true) (h2 : ∀ j < i, f (t.drop j) = false) :
    findPos f t = some i := by
  cases hf : findPos f t with
  | none => rw [findPos_none hf i] at h1; exact absurd h1 (by simp)
  | some i' =>
    obtain ⟨g1, g2⟩ := findPos_spec hf
    rcases Nat.lt_trichotomy i i' with hlt | heq | hgt
    · rw [g2 i hlt] at h1; exact absurd h1 (by simp)
    · rw [heq]
    · rw [h2 i' hgt] at g1; exact absurd g1 (by simp)

/-! ### Lemmas on `occCount` and `containsSub` -/

theorem drop_append_of_le {a b : List Char} {q : Nat} (h : q ≤ a.length) :
    (a ++ b).drop q = a.drop q ++ b := by
  rw [List.drop_append_eq_append_drop, Nat.sub_eq_zero_of_le h, List.drop_zero]

theorem occCount_nil {p : List Char} (hp : p ≠ []) : occCount p [] = 0 := by
  unfold occCount
  rw [startsWithL_nil_false hp]
  rfl

theorem occCount_eq_zero_iff {p : List Char} (hp : p ≠ []) (t : List Char) :
    occCount p t = 0 ↔ ∀ j, startsWithL p (t.drop j) = false := by
  induction t with
  | nil =>
    simp only [occCount_nil hp, List.drop_nil]
    simp [startsWithL_nil_false hp]
  | cons c rest ih =>
    unfold occCount
    cases hsw : startsWithL p (c :: rest) with
    | true =>
      rw [if_pos rfl]
      constructor
      · intro h; exfalso; omega
      · intro h
        have h0 := h 0
        rw [List.drop_zero, hsw] at h0
        exact absurd h0 (by simp)
    | false =>
      rw [if_neg (by simp), Nat.zero_add, ih]
      constructor
      · intro h j
        cases j with
        | zero => rw [List.drop_zero]; exact hsw
        | succ j' => exact h j'
      · intro h j
        have := h (j + 1)
        simpa using this

theorem occCount_pos {p t : List Char} {j : Nat}
    (h : startsWithL p (t.drop j) = true) : 1 ≤ occCount p t := by
  induction t generalizing j with
  | nil =>
    rw [List.drop_nil] at h
    unfold occCount
    rw [if_pos h]
  | cons c rest ih =>
    unfold occCount
    cases j with
    | zero =>
      rw [List.drop_zero] at h
      rw [if_pos h]
      omega
    | succ j' =>
      have := ih (j := j') (by simpa using h)
      by_cases hsw : startsWithL p (c :: rest) = true
      · rw [if_pos hsw]; omega
      · rw [if_neg hsw]; omega

theorem occCount_two {p t : List Char} {i j : Nat} (hp : p ≠ []) (hij : i < j)
    (hi : startsWithL p (t.drop i) = true)
    (hj : startsWithL p (t.drop j) = true) : 2 ≤ occCount p t := by
  induction t generalizing i j with
  | nil =>
    rw [List.drop_nil, startsWithL_nil_false hp] at hi
    exact absurd hi (by simp)
  | cons c rest ih =>
    unfold occCount
    cases i with
    | zero =>
      rw [List.drop_zero] at hi
      cases j with
      | zero => omega
      | succ j' =>
        have h1 := occCount_pos (p := p) (t := rest) (j := j') (by simpa using hj)
        rw [if_pos hi]
        omega
    | succ i' =>
      cases j with
      | zero => omega
      | succ j' =>
        have := ih (i := i') (j := j') (by omega) (by simpa using hi)
          (by simpa using hj)
        by_cases hsw : startsWithL p (c :: rest) = true
        · rw [if_pos hsw]; omega
        · rw [if_neg hsw]; omega

theorem occCount_append {p : List Char} (hp : p ≠ []) (a b : List Char)
    (hstr : ∀ q < a.length, startsWithL p ((a ++ b).drop q) = true →
      startsWithL p (a.drop q) = true) :
    occCount p (a ++ b) = occCount p a + occCount p b := by
  induction a with
  | nil =>
    rw [List.nil_append, occCount_nil hp, Nat.zero_add]
  | cons c as ih =>
    have hstr' : ∀ q < as.length, startsWithL p ((as ++ b).drop q) = true →
        startsWithL p (as.drop q) = true := by
      intro q hq h
      have := hstr (q + 1) (by simp only [List.length_cons]; omega)
        (by simpa using h)
      simpa using this
    have hhead : startsWithL p (c :: (as ++ b)) = startsWithL p (c :: as) := by
      cases hx : startsWithL p (c :: (as ++ b)) with
      | true =>
        have := hstr 0 (by simp) (by simpa using hx)
        simpa using this.symm
      | false =>
        cases hy : startsWithL p (c :: as) with
        | true =>
          have := startsWithL_append_left b hy
          rw [List.cons_append] at this
          rw [this] at hx
          exact absurd hx (by simp)
        | false => rfl
    have e1 : occCount p ((c :: as) ++ b) =
        (if startsWithL p (c :: (as ++ b)) = true then 1 else 0) +
          occCount p (as ++ b) := rfl
    have e2 : occCount p (c :: as) =
        (if startsWithL p (c :: as) = true then 1 else 0) + occCount p as := rfl
    rw [e1, e2, hhead, ih hstr']
    omega

theorem containsSub_of_occ {p t : List Char} {j : Nat}
    (h : startsWithL p (t.drop j) = true) : containsSub p t = true := by
  unfold containsSub findSub
  exact findPos_isSome h

theorem not_containsSub {p t : List Char} (h : containsSub p t = false) :
    ∀ j, startsWithL p (t.drop j) = false := by
  unfold containsSub findSub at h
  cases hf : findPos (fun s => startsWithL p s) t with
  | none => exact findPos_none hf
  | some i => rw [hf] at h; exact absurd h (by simp)

theorem containsSub_false_of_occ_zero {p t : List Char} (hp : p ≠ [])
    (h : occCount p t = 0) : containsSub p t = false := by
  cases hc : containsSub p t with
  | false => rfl
  | true =>
    unfold containsSub findSub at hc
    rw [Option.isSome_iff_exists] at hc
    obtain ⟨i, hi⟩ := hc
    have := (findPos_spec hi).1
    have hz := (occCount_eq_zero_iff hp t).1 h i
    rw [hz] at this
    exact absurd this (by simp)

theorem containsSub_of_occ_one {p t : List Char} (hp : p ≠ [])
    (h : occCount p t = 1) : containsSub p t = true := by
  cases hc : containsSub p t with
  | true => rfl
  | false =>
    have := (occCount_eq_zero_iff hp t).2 (not_containsSub hc)
    omega

/-! ### Lemmas on `joinNl` -/

theorem joinNl_cons {x : List Char} {ys : List (List Char)} (hy : ys ≠ []) :
    joinNl (x :: ys) = x ++ '\n' :: joinNl ys := by
  cases ys with
  | nil => exact absurd rfl hy
  | cons y ys' => rfl

theorem occCount_cons_nl {p : List Char} (hp : p ≠ []) (hnl : ¬ '\n' ∈ p)
    (t : List Char) : occCount p ('\n' :: t) = occCount p t := by
  have hsw : startsWithL p ('\n' :: t) = false := by
    cases hx : startsWithL p ('\n' :: t) with
    | false => rfl
    | true => exact absurd (mem_of_startsWithL_head hp hx) hnl
  have e : occCount p ('\n' :: t) =
      (if startsWithL p ('\n' :: t) = true then 1 else 0) + occCount p t := rfl
  rw [e, if_neg (by simp [hsw]), Nat.zero_add]

theorem occCount_append_nl {p : List Char} (hp : p ≠ []) (hnl : ¬ '\n' ∈ p)
    (a t : List Char) :
    occCount p (a ++ '\n' :: t) = occCount p a + occCount p t := by
  rw [occCount_append hp a ('\n' :: t) ?hstr, occCount_cons_nl hp hnl]
  case hstr =>
    intro q hq h
    have hd : (a ++ '\n' :: t).drop q = a.drop q ++ '\n' :: t :=
      drop_append_of_le (Nat.le_of_lt hq)
    rw [hd] at h
    by_cases hlen : p.length ≤ (a.drop q).length
    · exact startsWithL_append_elim hlen h
    · obtain ⟨h1, h2⟩ := startsWithL_split (by omega) h
      have hlen2 : (a.drop q).length < p.length := by omega
      have hne : p.drop (a.drop q).length ≠ [] := by
        intro hc
        have hlc := congrArg List.length hc
        rw [List.length_drop] at hlc
        simp only [List.length_nil] at hlc
        omega
      exact absurd (List.drop_subset _ _ (mem_of_startsWithL_head hne h2)) hnl

theorem occCount_joinNl {p : List Char} (hp : p ≠ []) (hnl : ¬ '\n' ∈ p)
    (ls : List (List Char)) :
    occCount p (joinNl ls) = (ls.map (occCount p)).sum := by
  induction ls with
  | nil => simp [joinNl, occCount_nil hp]
  | cons x ys ih =>
    cases ys with
    | nil => simp [joinNl]
    | cons y ys' =>
      rw [joinNl_cons (by simp), occCount_append_nl hp hnl, ih]
      simp

/-! ### Concrete facts about the two marker strings -/

theorem STARTl_ne_nil : STARTl ≠ [] := by decide

theorem ENDl_ne_nil : ENDl ≠ [] := by decide

theorem STARTl_length : STARTl.length = 31 := by decide

theorem ENDl_length : ENDl.length = 29 := by decide

theorem nl_not_mem_STARTl : ¬ '\n' ∈ STARTl := by decide

theorem nl_not_mem_ENDl : ¬ '\n' ∈ ENDl := by decide

theorem occ_STARTl_STARTl : occCount STARTl STARTl = 1 := by decide

theorem occ_ENDl_ENDl : occCount ENDl ENDl = 1 := by decide

theorem occ_STARTl_ENDl : occCount STARTl ENDl = 0 := by decide

theorem occ_ENDl_STARTl : occCount ENDl STARTl = 0 := by decide

/-- The start marker has no non-trivial border except the single `'/'`. -/
theorem start_border : ∀ k < 31, 0 < k → STARTl.take (31 - k) = STARTl.drop k → k = 30 := by
  decide

/-- A proper suffix of the end marker that matches a head of the start
marker can only be the final `'/'`. -/
theorem end_start_border : ∀ k < 29, 0 < k → STARTl.take (29 - k) = ENDl.drop k → k = 28 := by
  decide

/-- A head of the start marker equals a tail of `'\n' ++ END` only for the
single character `'/'`. -/
theorem start_tail_border :
    ∀ k < 31, 0 < k → STARTl.take k = ('\n' :: ENDl).drop (30 - k) → k = 1 := by
  decide

/-- A head of the end marker equals a tail of `'\n' ++ END` only for the
single character `'/'`. -/
theorem end_tail_border :
    ∀ k < 29, 0 < k → ENDl.take k = ('\n' :: ENDl).drop (30 - k) → k = 1 := by
  decide

theorem STARTl_drop30 : STARTl.drop 30 = STARTl.take 1 := by decide

theorem STARTl_head : STARTl = '/' :: STARTl.drop 1 := by decide

theorem ENDl_drop28 : ENDl.drop 28 = ['/'] := by decide

theorem ENDl_head : ENDl = '/' :: ENDl.drop 1 := by decide

/-! ### Structure of the managed block -/

/-- The lines of the block after the start marker. -/
def blockInner (dirs : List (List Char)) : List Char := joinNl (dirs ++ [ENDl])

theorem blockInner_nil : blockInner [] = ENDl := rfl

theorem blockInner_cons (d : List Char) (ds : List (List Char)) :
    blockInner (d :: ds) = d ++ '\n' :: blockInner ds := by
  unfold blockInner
  rw [List.cons_append, joinNl_cons (by simp)]

theorem managedBlock_eq (dirs : List (List Char)) :
    managedBlock dirs = STARTl ++ '\n' :: blockInner dirs := by
  unfold managedBlock blockInner
  exact joinNl_cons (by simp)

theorem blockInner_len (dirs : List (List Char)) :
    29 ≤ (blockInner dirs).length := by
  induction dirs with
  | nil => rw [blockInner_nil, ENDl_length]
  | cons d ds ih =>
    rw [blockInner_cons]
    simp only [List.length_append, List.length_cons]
    omega

theorem managedBlock_length (dirs : List (List Char)) :
    (managedBlock dirs).length = 32 + (blockInner dirs).length := by
  rw [managedBlock_eq]
  simp only [List.length_append, List.length_cons, STARTl_length]
  omega

theorem startsWithL_managedBlock (dirs : List (List Char)) (v : List Char) :
    startsWithL STARTl (managedBlock dirs ++ v) = true := by
  rw [managedBlock_eq, List.append_assoc]
  exact startsWithL_append_left _ (startsWithL_self STARTl)

/-- The block always ends in `'\n' ++ END`. -/
theorem managedBlock_split (dirs : List (List Char)) :
    ∃ Y, managedBlock dirs = Y ++ '\n' :: ENDl := by
  rw [managedBlock_eq]
  cases dirs with
  | nil => exact ⟨STARTl, by rw [blockInner_nil]⟩
  | cons d ds =>
    suffices h : ∃ Z, blockInner (d :: ds) = Z ++ '\n' :: ENDl by
      obtain ⟨Z, hZ⟩ := h
      exact ⟨STARTl ++ '\n' :: Z, by rw [hZ]; simp⟩
    induction ds generalizing d with
    | nil => exact ⟨d, by rw [blockInner_cons, blockInner_nil]⟩
    | cons e es ih =>
      obtain ⟨Z', hZ'⟩ := ih e
      exact ⟨d ++ '\n' :: Z', by rw [blockInner_cons, hZ']; simp⟩

/-- A newline-free pattern matching at a position whose remaining text is
`x ++ '\n' ++ v` must already match inside `x`. -/
theorem startsWithL_before_nl {p x v : List Char}
    (hnl : ¬ '\n' ∈ p) (h : startsWithL p (x ++ '\n' :: v) = true) :
    startsWithL p x = true := by
  by_cases hlen : p.length ≤ x.length
  · exact startsWithL_append_elim hlen h
  · exfalso
    obtain ⟨h1, h2⟩ := startsWithL_split (by omega) h
    have hne : p.drop x.length ≠ [] := by
      intro hc
      have hlc := congrArg List.length hc
      rw [List.length_drop] at hlc
      simp only [List.length_nil] at hlc
      omega
    exact absurd (List.drop_subset _ _ (mem_of_startsWithL_head hne h2)) hnl

/-- In the block tail (directive lines then the end marker) followed by
anything, the first end-marker occurrence is exactly at the end marker,
provided no directive line contains a newline or the end marker. -/
theorem findSub_end_inner (dirs : List (List Char))
    (hdirs : ∀ d ∈ dirs, occCount ENDl d = 0 ∧ ¬ '\n' ∈ d) (w : List Char) :
    findSub ENDl (blockInner dirs ++ w) = some ((blockInner dirs).length - 29) := by
  induction dirs with
  | nil =>
    rw [blockInner_nil, ENDl_length, Nat.sub_self]
    apply findPos_eq_some
    · rw [List.drop_zero]
      exact startsWithL_append_left _ (startsWithL_self ENDl)
    · omega
  | cons d ds ih =>
    have hd := hdirs d (List.mem_cons_self _ _)
    have hds : ∀ d' ∈ ds, occCount ENDl d' = 0 ∧ ¬ '\n' ∈ d' := by
      intro d' hd'
      exact hdirs d' (List.mem_cons_of_mem _ hd')
    have hlen := blockInner_len ds
    rw [blockInner_cons]
    have hpos : (d ++ '\n' :: blockInner ds).length - 29 =
        d.length + (1 + ((blockInner ds).length - 29)) := by
      simp only [List.length_append, List.length_cons]
      omega
    rw [hpos]
    have hassoc : (d ++ '\n' :: blockInner ds) ++ w = d ++ '\n' :: (blockInner ds ++ w) := by
      simp
    rw [hassoc]
    apply findPos_eq_some
    · rw [List.drop_append_eq_append_drop, List.drop_of_length_le (by omega)]
      have : d.length + (1 + ((blockInner ds).length - 29)) - d.length =
          1 + ((blockInner ds).length - 29) := by omega
      rw [this, List.nil_append]
      have hdrop : ('\n' :: (blockInner ds ++ w)).drop (1 + ((blockInner ds).length - 29)) =
          (blockInner ds ++ w).drop ((blockInner ds).length - 29) := by
        have : 1 + ((blockInner ds).length - 29) = (blockInner ds).length - 29 + 1 := by omega
        rw [this, List.drop_succ_cons]
      rw [hdrop]
      exact (findPos_spec (ih hds)).1
    · intro q hq
      by_cases hqd : q ≤ d.length
      · rw [drop_append_of_le hqd]
        cases hx : startsWithL ENDl (d.drop q ++ '\n' :: (blockInner ds ++ w)) with
        | false => rfl
        | true =>
          exfalso
          have := startsWithL_before_nl nl_not_mem_ENDl hx
          have hz := (occCount_eq_zero_iff ENDl_ne_nil d).1 hd.1 q
          rw [hz] at this
          exact absurd this (by simp)
      · have hq' : q = d.length + 1 + (q - d.length - 1) := by omega
        rw [hq', List.drop_append_eq_append_drop, List.drop_of_length_le (by omega),
          List.nil_append]
        have : d.length + 1 + (q - d.length - 1) - d.length = (q - d.length - 1) + 1 := by
          omega
        rw [this, List.drop_succ_cons]
        exact (findPos_spec (ih hds)).2 (q - d.length - 1) (by omega)

/-! ### More `startsWithL` / `findSub` helpers -/

theorem sw_false_of_head_not_mem {p x : List Char} {c : Char} (hp : p ≠ [])
    (hc : ¬ c ∈ p) : startsWithL p (c :: x) = false := by
  cases h : startsWithL p (c :: x) with
  | false => rfl
  | true => exact absurd (mem_of_startsWithL_head hp h) hc

theorem findSub_cons_shift {p x : List Char} {c : Char}
    (hc : startsWithL p (c :: x) = false) :
    findSub p (c :: x) = (findSub p x).map (· + 1) := by
  have e : findPos (fun s => startsWithL p s) (c :: x) =
      if startsWithL p (c :: x) = true then some 0
      else (findPos (fun s => startsWithL p s) x).map (· + 1) := rfl
  unfold findSub
  rw [e, hc]
  simp

theorem drop_decomp_of_sw {p t : List Char} {a : Nat}
    (h : startsWithL p (t.drop a) = true) :
    t.drop a = p ++ t.drop (a + p.length) := by
  have h' := (startsWithL_iff _ _).1 h
  conv_lhs => rw [← List.take_append_drop p.length (t.drop a)]
  rw [h', List.drop_drop]

/-! ### Unpacking a successful block match -/

theorem blockMatch_unpack {t : List Char} {i j : Nat}
    (h : blockMatch t = some (i, j)) :
    findSub STARTl t = some i ∧
    startsWithL STARTl (t.drop i) = true ∧
    (∀ q < i, startsWithL STARTl (t.drop q) = false) ∧
    startsWithL ENDl (t.drop (j - 29)) = true ∧
    i + 60 ≤ j ∧ j ≤ t.length ∧
    (∀ q, i + 31 ≤ q → q < j - 29 → startsWithL ENDl (t.drop q) = false) := by
  unfold blockMatch at h
  cases hs : findSub STARTl t with
  | none => rw [hs] at h; exact absurd h (by simp)
  | some i2 =>
    rw [hs] at h
    dsimp only at h
    cases he : findSub ENDl (t.drop (i2 + STARTl.length)) with
    | none => rw [he] at h; exact absurd h (by simp)
    | some m =>
      rw [he] at h
      dsimp only at h
      injection h with h2
      injection h2 with h3 h4
      subst h3
      subst h4
      rw [STARTl_length] at he
      obtain ⟨hsw, hmin⟩ := findPos_spec hs
      obtain ⟨hesw, hemin'⟩ := findPos_spec he
      rw [List.drop_drop] at hesw
      have hlen := startsWithL_length hesw
      rw [List.length_drop, ENDl_length] at hlen
      rw [STARTl_length, ENDl_length]
      refine ⟨rfl, hsw, hmin, ?_, by omega, by omega, ?_⟩
      · have harith : i2 + 31 + m + 29 - 29 = i2 + 31 + m := by omega
        rw [harith]
        exact hesw
      · intro q hq1 hq2
        have harith : q = i2 + 31 + (q - (i2 + 31)) := by omega
        rw [harith, ← List.drop_drop]
        exact hemin' (q - (i2 + 31)) (by omega)

/-! ### Computation lemmas for `mergeText` -/

theorem mergeText_marked {t : List Char} (dirs : List (List Char)) {i j : Nat}
    (hbm : blockMatch t = some (i, j)) :
    mergeText t dirs =
      if (t.drop i).take (j - i) = managedBlock dirs then (t, false)
      else (t.take i ++ managedBlock dirs ++ t.drop j, true) := by
  obtain ⟨hs, hsw, hmin, hswe, hij, hjle, hemin⟩ := blockMatch_unpack hbm
  have h1 : containsSub STARTl t = true := by
    unfold containsSub
    rw [hs]
    rfl
  have h2 : containsSub ENDl t = true := containsSub_of_occ hswe
  unfold mergeText
  rw [h1, h2, hbm]
  simp only [Bool.and_self, if_true]

theorem mergeText_nomatch {t : List Char} (dirs : List (List Char))
    (h1 : containsSub STARTl t = true) (h2 : containsSub ENDl t = true)
    (hbm : blockMatch t = none) : mergeText t dirs = (t, true) := by
  unfold mergeText
  rw [h1, h2, hbm]
  simp only [Bool.and_self, if_true]

theorem mergeText_fresh_import {t : List Char} (dirs : List (List Char))
    {idx : Nat}
    (hmk : (containsSub STARTl t && containsSub ENDl t) = false)
    (himp : findImport (stripLegacy t) = some idx) :
    mergeText t dirs =
      ((stripLegacy t).take (importEnd (stripLegacy t) idx) ++
        '\n' :: (managedBlock dirs ++
          '\n' :: (stripLegacy t).drop (importEnd (stripLegacy t) idx)), true) := by
  unfold mergeText
  rw [hmk]
  simp only [Bool.false_eq_true, if_false]
  rw [himp]

theorem mergeText_fresh_noimport {t : List Char} (dirs : List (List Char))
    (hmk : (containsSub STARTl t && containsSub ENDl t) = false)
    (himp : findImport (stripLegacy t) = none) :
    mergeText t dirs = (managedBlock dirs ++ '\n' :: '\n' :: stripLegacy t, true) := by
  unfold mergeText
  rw [hmk]
  simp only [Bool.false_eq_true, if_false]
  rw [himp]

/-! ### More append/take/drop helpers and concrete overlap facts -/

theorem drop_append_self {a b : List Char} : (a ++ b).drop a.length = b :=
  List.drop_left a b

theorem take_append_self {a b : List Char} : (a ++ b).take a.length = a :=
  List.take_left a b

theorem drop_append_ge {a b : List Char} {q : Nat} (h : a.length ≤ q) :
    (a ++ b).drop q = b.drop (q - a.length) := by
  rw [List.drop_append_eq_append_drop, List.drop_of_length_le h, List.nil_append]

theorem start_overlap : STARTl.take 30 ++ STARTl = STARTl ++ STARTl.drop 1 := by
  decide

theorem end_start_overlap : ENDl.take 28 ++ STARTl = ENDl ++ STARTl.drop 1 := by
  decide

theorem start_cons : '/' :: STARTl.drop 1 = STARTl := by decide

theorem end_cons : '/' :: ENDl.drop 1 = ENDl := by decide

/-- If a pattern never occurs in a text, it never occurs in a front part
of it either. -/
theorem sw_take_all_false {p t : List Char} {e : Nat}
    (h : ∀ j, startsWithL p (t.drop j) = false) :
    ∀ q, startsWithL p ((t.take e).drop q) = false := by
  intro q
  cases hx : startsWithL p ((t.take e).drop q) with
  | false => rfl
  | true =>
    exfalso
    rw [List.drop_take] at hx
    have h2 := startsWithL_take_elim hx
    rw [h q] at h2
    exact absurd h2 (by simp)

/-! ### The central stability lemma

Any text of the form `u ++ managedBlock dirs ++ v` in which no start-marker
occurrence starts inside `u` is a fixed point of the merge: the block match
finds exactly the block and the comparison reports no change. -/

theorem mergeStable (dirs : List (List Char))
    (hdirs : ∀ d ∈ dirs, occCount ENDl d = 0 ∧ ¬ '\n' ∈ d)
    (u v : List Char)
    (hout : ∀ q < u.length,
      startsWithL STARTl ((u ++ (managedBlock dirs ++ v)).drop q) = false) :
    mergeText (u ++ (managedBlock dirs ++ v)) dirs =
      (u ++ (managedBlock dirs ++ v), false) := by
  have hswmb : startsWithL STARTl ((u ++ (managedBlock dirs ++ v)).drop u.length) = true := by
    rw [drop_append_self]
    exact startsWithL_managedBlock dirs v
  have hfs : findSub STARTl (u ++ (managedBlock dirs ++ v)) = some u.length :=
    findPos_eq_some hswmb hout
  have hdrop31 : (u ++ (managedBlock dirs ++ v)).drop (u.length + 31) =
      '\n' :: (blockInner dirs ++ v) := by
    rw [← List.drop_drop, drop_append_self, managedBlock_eq, List.append_assoc,
      ← STARTl_length, drop_append_self]
    rfl
  have hfe : findSub ENDl ((u ++ (managedBlock dirs ++ v)).drop (u.length + 31)) =
      some ((blockInner dirs).length - 29 + 1) := by
    rw [hdrop31,
      findSub_cons_shift (sw_false_of_head_not_mem ENDl_ne_nil nl_not_mem_ENDl),
      findSub_end_inner dirs hdirs v]
    rfl
  have hbm : blockMatch (u ++ (managedBlock dirs ++ v)) =
      some (u.length, u.length + (managedBlock dirs).length) := by
    unfold blockMatch
    rw [hfs]
    dsimp only
    rw [STARTl_length, hfe]
    dsimp only
    rw [ENDl_length]
    have hlen := blockInner_len dirs
    have harith : u.length + 31 + ((blockInner dirs).length - 29 + 1) + 29 =
        u.length + (managedBlock dirs).length := by
      rw [managedBlock_length]
      omega
    rw [harith]
  have hextract : ((u ++ (managedBlock dirs ++ v)).drop u.length).take
      (u.length + (managedBlock dirs).length - u.length) = managedBlock dirs := by
    rw [drop_append_self]
    have harith : u.length + (managedBlock dirs).length - u.length =
        (managedBlock dirs).length := by omega
    rw [harith, take_append_self]
  rw [mergeText_marked dirs hbm, if_pos hextract]

/-! ### No start marker before a replaced block -/

theorem hout_of_take {t : List Char} {i : Nat} (mbv : List Char)
    (hsw : startsWithL STARTl (t.drop i) = true)
    (hmin : ∀ q < i, startsWithL STARTl (t.drop q) = false)
    (hi : i ≤ t.length)
    (hmbv : startsWithL STARTl mbv = true) :
    ∀ q < (t.take i).length, startsWithL STARTl ((t.take i ++ mbv).drop q) = false := by
  intro q hq
  rw [List.length_take] at hq
  have hq' : q < i := lt_of_lt_of_le hq (min_le_left _ _)
  cases hx : startsWithL STARTl ((t.take i ++ mbv).drop q) with
  | false => rfl
  | true =>
    exfalso
    rw [drop_append_of_le (by rw [List.length_take]; omega)] at hx
    have hk : ((t.take i).drop q).length = i - q := by
      rw [List.length_drop, List.length_take]
      omega
    by_cases hlen : STARTl.length ≤ ((t.take i).drop q).length
    · have h1 := startsWithL_append_elim hlen hx
      rw [List.drop_take] at h1
      have h2 := startsWithL_take_elim h1
      rw [hmin q hq'] at h2
      exact absurd h2 (by simp)
    · obtain ⟨h1, h2⟩ := startsWithL_split (by omega) hx
      have hmbv31 : mbv = STARTl ++ mbv.drop STARTl.length := by
        conv_lhs => rw [← List.take_append_drop STARTl.length mbv]
        rw [(startsWithL_iff _ _).1 hmbv]
      rw [hmbv31] at h2
      have h3 : startsWithL (STARTl.drop ((t.take i).drop q).length) STARTl = true :=
        startsWithL_append_elim
          (by rw [List.length_drop]; omega) h2
      have h4 := (startsWithL_iff _ _).1 h3
      rw [List.length_drop] at h4
      rw [hk] at h4
      rw [STARTl_length] at h4 hlen
      rw [hk] at hlen
      have hk30 := start_border (i - q) (by omega) (by omega) h4
      -- the straddle forces the 30-character border, giving a start-marker
      -- occurrence at `q` in `t` itself, contradicting minimality of `i`
      rw [hk, hk30] at h1
      have hsplit : t.drop q = (t.take i).drop q ++ t.drop i := by
        conv_lhs => rw [← List.take_append_drop i t]
        rw [drop_append_of_le (by rw [List.length_take]; omega)]
      have hdec := drop_decomp_of_sw hsw
      rw [STARTl_length] at hdec
      have hocc : startsWithL STARTl (t.drop q) = true := by
        rw [hsplit, ← h1, hdec, ← List.append_assoc, start_overlap, List.append_assoc]
        exact startsWithL_append_left _ (startsWithL_self STARTl)
      rw [hmin q hq'] at hocc
      exact absurd hocc (by simp)

/-- No start marker starts inside the region before a freshly inserted
block (the region ends with the newline separator). -/
theorem hout_nl_u {t : List Char} {e : Nat} (mbv : List Char)
    (hnc : containsSub STARTl t = false) :
    ∀ q < (t.take e ++ ['\n']).length,
      startsWithL STARTl (((t.take e ++ ['\n']) ++ mbv).drop q) = false := by
  intro q hq
  cases hx : startsWithL STARTl (((t.take e ++ ['\n']) ++ mbv).drop q) with
  | false => rfl
  | true =>
    exfalso
    rw [List.append_assoc, List.singleton_append] at hx
    have hqA : q ≤ (t.take e).length := by
      rw [List.length_append, List.length_cons, List.length_nil] at hq
      omega
    rw [drop_append_of_le hqA] at hx
    have h1 := startsWithL_before_nl nl_not_mem_STARTl hx
    have h2 := sw_take_all_false (not_containsSub hnc) (e := e) q
    rw [h2] at h1
    exact absurd h1 (by simp)

/-! ### Claim C4: idempotence of the merge -/

/-- C4 (amended): for every document text with no legacy directive matches
whose marker occurrences are well formed (either no start marker occurs at
all, or the block regex matches), and every directive list whose entries
contain neither a newline nor the end marker, applying the merge twice
yields the same text as applying it once, and the second application
reports unchanged (`false`). -/
theorem claimC4_amended (t : List Char) (dirs : List (List Char))
    (hdirs : ∀ d ∈ dirs, occCount ENDl d = 0 ∧ ¬ '\n' ∈ d)
    (hstrip : stripLegacy t = t)
    (hwf : containsSub STARTl t = false ∨ (blockMatch t).isSome = true) :
    mergeText (mergeText t dirs).1 dirs = ((mergeText t dirs).1, false) := by
  rcases hwf with hnc | hbm
  · have hmk : (containsSub STARTl t && containsSub ENDl t) = false := by
      rw [hnc]
      rfl
    cases himp : findImport (stripLegacy t) with
    | some idx =>
      rw [mergeText_fresh_import dirs hmk himp]
      rw [hstrip]
      dsimp only
      have hforme : ∀ (A m B : List Char),
          A ++ '\n' :: (m ++ '\n' :: B) = (A ++ ['\n']) ++ (m ++ ('\n' :: B)) := by
        intro A m B
        simp
      rw [hforme]
      exact mergeStable dirs hdirs _ _ (hout_nl_u _ hnc)
    | none =>
      rw [mergeText_fresh_noimport dirs hmk himp, hstrip]
      dsimp only
      have hform : managedBlock dirs ++ '\n' :: '\n' :: t =
          [] ++ (managedBlock dirs ++ ('\n' :: '\n' :: t)) := by simp
      rw [hform]
      refine mergeStable dirs hdirs [] _ ?_
      intro q hq
      simp at hq
  · rw [Option.isSome_iff_exists] at hbm
    obtain ⟨⟨i, j⟩, hbm⟩ := hbm
    obtain ⟨hs, hsw, hmin, hswe, hij, hjle, hemin⟩ := blockMatch_unpack hbm
    rw [mergeText_marked dirs hbm]
    by_cases heq : (t.drop i).take (j - i) = managedBlock dirs
    · rw [if_pos heq]
      dsimp only
      rw [mergeText_marked dirs hbm, if_pos heq]
    · rw [if_neg heq]
      dsimp only
      have hassoc : t.take i ++ managedBlock dirs ++ t.drop j =
          t.take i ++ (managedBlock dirs ++ t.drop j) := by
        rw [List.append_assoc]
      rw [hassoc]
      exact mergeStable dirs hdirs _ _
        (hout_of_take _ hsw hmin (findPos_le hs) (startsWithL_managedBlock dirs _))

/-- C4 counterexample: on a text whose end marker precedes its start marker
the block regex finds no match, the first merge reports changed while
writing the text back unchanged, and the second application again reports
changed (`true`) with the same text — so the claim's "the second
application reports unchanged" is false as stated. -/
theorem claimC4_counterexample :
    mergeText (mergeText (ENDl ++ '\n' :: STARTl) []).1 [] =
      (ENDl ++ '\n' :: STARTl, true) := by decide

/-- C4 witness: the amended idempotence applied to a concrete marker-free
stylesheet and one directive. -/
theorem claimC4_witness :
    mergeText (mergeText "body { }\n".toList ["@source \"../libs/ui\";".toList]).1
        ["@source \"../libs/ui\";".toList] =
      ((mergeText "body { }\n".toList ["@source \"../libs/ui\";".toList]).1, false) :=
  claimC4_amended _ _ (by decide) (by decide) (Or.inl (by decide))

/-! ### Occurrence counts around a replaced block -/

theorem drop_split_at {t : List Char} {i q : Nat} (hq : q ≤ i) (hi : i ≤ t.length) :
    t.drop q = (t.take i).drop q ++ t.drop i := by
  conv_lhs => rw [← List.take_append_drop i t]
  rw [drop_append_of_le (by rw [List.length_take]; omega)]

theorem occ_front_zero {p t : List Char} {i m : Nat} (hp : p ≠ [])
    (hocc1 : occCount p t = 1) (hswm : startsWithL p (t.drop m) = true)
    (him : i ≤ m) : occCount p (t.take i) = 0 := by
  rw [occCount_eq_zero_iff hp]
  intro q
  by_cases hq : q < i
  · cases hx : startsWithL p ((t.take i).drop q) with
    | false => rfl
    | true =>
      exfalso
      rw [List.drop_take] at hx
      have h2 := startsWithL_take_elim hx
      have := occCount_two hp (show q < m by omega) h2 hswm
      omega
  · rw [List.drop_of_length_le (by rw [List.length_take]; omega)]
    exact startsWithL_nil_false hp

theorem occ_suffix_zero {p t : List Char} {i j : Nat} (hp : p ≠ [])
    (hocc1 : occCount p t = 1) (hsw : startsWithL p (t.drop i) = true)
    (hij : i < j) : occCount p (t.drop j) = 0 := by
  rw [occCount_eq_zero_iff hp]
  intro q
  cases hx : startsWithL p ((t.drop j).drop q) with
  | false => rfl
  | true =>
    exfalso
    rw [List.drop_drop] at hx
    have := occCount_two hp (show i < j + q by omega) hsw hx
    omega

theorem occ_start_mb (dirs : List (List Char))
    (hdirs : ∀ d ∈ dirs, occCount STARTl d = 0) :
    occCount STARTl (managedBlock dirs) = 1 := by
  unfold managedBlock
  rw [occCount_joinNl STARTl_ne_nil nl_not_mem_STARTl]
  simp only [List.map_cons, List.map_append, List.map_nil, List.sum_cons,
    List.sum_append, List.sum_nil, occ_STARTl_STARTl, occ_STARTl_ENDl]
  have hz : (dirs.map (occCount STARTl)).sum = 0 := by
    apply List.sum_eq_zero
    intro x hx
    rw [List.mem_map] at hx
    obtain ⟨d, hd, rfl⟩ := hx
    exact hdirs d hd
  omega

theorem occ_end_mb (dirs : List (List Char))
    (hdirs : ∀ d ∈ dirs, occCount ENDl d = 0) :
    occCount ENDl (managedBlock dirs) = 1 := by
  unfold managedBlock
  rw [occCount_joinNl ENDl_ne_nil nl_not_mem_ENDl]
  simp only [List.map_cons, List.map_append, List.map_nil, List.sum_cons,
    List.sum_append, List.sum_nil, occ_ENDl_ENDl, occ_ENDl_STARTl]
  have hz : (dirs.map (occCount ENDl)).sum = 0 := by
    apply List.sum_eq_zero
    intro x hx
    rw [List.mem_map] at hx
    obtain ⟨d, hd, rfl⟩ := hx
    exact hdirs d hd
  omega

/-- Behind a matched end marker ending at `j`, position `j - 1` holds its
final `'/'`. -/
theorem drop_j1 {t : List Char} {j : Nat}
    (hswe : startsWithL ENDl (t.drop (j - 29)) = true) (hj : 29 ≤ j) :
    t.drop (j - 1) = '/' :: t.drop j := by
  have hdecE := drop_decomp_of_sw hswe
  rw [ENDl_length] at hdecE
  have hj29 : j - 29 + 29 = j := by omega
  rw [hj29] at hdecE
  have h28 : t.drop (j - 1) = (t.drop (j - 29)).drop 28 := by
    rw [List.drop_drop]
    have harith : j - 29 + 28 = j - 1 := by omega
    rw [harith]
  rw [h28, hdecE, drop_append_of_le (by rw [ENDl_length]; omega), ENDl_drop28,
    List.singleton_append]

/-- A start-marker occurrence crossing from the managed block into the
suffix `t.drop j` would force a second start-marker occurrence at `j - 1`
of `t`; under a unique start marker this cannot happen. -/
theorem hstr_mb_v_start {t : List Char} {i j : Nat} (dirs : List (List Char))
    (hsw : startsWithL STARTl (t.drop i) = true)
    (hswe : startsWithL ENDl (t.drop (j - 29)) = true)
    (hij : i + 60 ≤ j)
    (hocc1 : occCount STARTl t = 1) :
    ∀ q < (managedBlock dirs).length,
      startsWithL STARTl ((managedBlock dirs ++ t.drop j).drop q) = true →
      startsWithL STARTl ((managedBlock dirs).drop q) = true := by
  intro q hq hx
  rw [drop_append_of_le (Nat.le_of_lt hq)] at hx
  by_cases hlen : STARTl.length ≤ ((managedBlock dirs).drop q).length
  · exact startsWithL_append_elim hlen hx
  · exfalso
    obtain ⟨h1, h2⟩ := startsWithL_split (by omega) hx
    set k := ((managedBlock dirs).drop q).length with hkdef
    have hkq : k = (managedBlock dirs).length - q := by rw [hkdef, List.length_drop]
    obtain ⟨Y, hY⟩ := managedBlock_split dirs
    have hmbl : (managedBlock dirs).length = Y.length + 30 := by
      rw [hY, List.length_append, List.length_cons, ENDl_length]
    rw [STARTl_length] at hlen
    have hYq : Y.length ≤ q := by omega
    have hdropq : (managedBlock dirs).drop q = ('\n' :: ENDl).drop (30 - k) := by
      have harith : 30 - k = q - Y.length := by omega
      rw [harith, hY, drop_append_ge hYq]
    rw [hdropq] at h1
    have hk1 := start_tail_border k (by omega) (by omega) h1
    rw [hk1] at h2
    have hoccj : startsWithL STARTl (t.drop (j - 1)) = true := by
      rw [drop_j1 hswe (by omega), ← start_cons, startsWithL_cons_same]
      exact h2
    have := occCount_two STARTl_ne_nil (show i < j - 1 by omega) hsw hoccj
    omega

/-- The end-marker version of `hstr_mb_v_start`. -/
theorem hstr_mb_v_end {t : List Char} {i j : Nat} (dirs : List (List Char))
    (hswe : startsWithL ENDl (t.drop (j - 29)) = true)
    (hij : i + 60 ≤ j)
    (hocc1E : occCount ENDl t = 1) :
    ∀ q < (managedBlock dirs).length,
      startsWithL ENDl ((managedBlock dirs ++ t.drop j).drop q) = true →
      startsWithL ENDl ((managedBlock dirs).drop q) = true := by
  intro q hq hx
  rw [drop_append_of_le (Nat.le_of_lt hq)] at hx
  by_cases hlen : ENDl.length ≤ ((managedBlock dirs).drop q).length
  · exact startsWithL_append_elim hlen hx
  · exfalso
    obtain ⟨h1, h2⟩ := startsWithL_split (by omega) hx
    set k := ((managedBlock dirs).drop q).length with hkdef
    have hkq : k = (managedBlock dirs).length - q := by rw [hkdef, List.length_drop]
    obtain ⟨Y, hY⟩ := managedBlock_split dirs
    have hmbl : (managedBlock dirs).length = Y.length + 30 := by
      rw [hY, List.length_append, List.length_cons, ENDl_length]
    rw [ENDl_length] at hlen
    have hYq : Y.length ≤ q := by omega
    have hdropq : (managedBlock dirs).drop q = ('\n' :: ENDl).drop (30 - k) := by
      have harith : 30 - k = q - Y.length := by omega
      rw [harith, hY, drop_append_ge hYq]
    rw [hdropq] at h1
    have hk1 := end_tail_border k (by omega) (by omega) h1
    rw [hk1] at h2
    have hoccj : startsWithL ENDl (t.drop (j - 1)) = true := by
      rw [drop_j1 hswe (by omega), ← end_cons, startsWithL_cons_same]
      exact h2
    have := occCount_two ENDl_ne_nil (show j - 29 < j - 1 by omega) hswe hoccj
    omega

/-- An end-marker occurrence crossing from the front part into the block
would force a second end-marker occurrence in `t` before the block,
contradicting a unique end marker. -/
theorem hstr_u_end {t : List Char} {i j : Nat} (dirs : List (List Char))
    (hsw : startsWithL STARTl (t.drop i) = true)
    (hswe : startsWithL ENDl (t.drop (j - 29)) = true)
    (hij : i + 60 ≤ j) (hi : i ≤ t.length)
    (hocc1E : occCount ENDl t = 1) :
    ∀ q < (t.take i).length,
      startsWithL ENDl ((t.take i ++ (managedBlock dirs ++ t.drop j)).drop q) = true →
      startsWithL ENDl ((t.take i).drop q) = true := by
  intro q hq hx
  rw [List.length_take] at hq
  have hq' : q < i := lt_of_lt_of_le hq (min_le_left _ _)
  rw [drop_append_of_le (by rw [List.length_take]; omega)] at hx
  by_cases hlen : ENDl.length ≤ ((t.take i).drop q).length
  · exact startsWithL_append_elim hlen hx
  · exfalso
    obtain ⟨h1, h2⟩ := startsWithL_split (by omega) hx
    have hk : ((t.take i).drop q).length = i - q := by
      rw [List.length_drop, List.length_take]
      omega
    rw [managedBlock_eq, List.append_assoc] at h2
    have h3 : startsWithL (ENDl.drop ((t.take i).drop q).length) STARTl = true :=
      startsWithL_append_elim
        (by rw [List.length_drop, ENDl_length, STARTl_length, hk]; omega) h2
    have h4 := (startsWithL_iff _ _).1 h3
    rw [List.length_drop, ENDl_length, hk] at h4
    rw [ENDl_length, hk] at hlen
    have hk28 := end_start_border (i - q) (by omega) (by omega) h4
    rw [hk, hk28] at h1
    have hsplit : t.drop q = (t.take i).drop q ++ t.drop i :=
      drop_split_at (by omega) hi
    have hdec := drop_decomp_of_sw hsw
    rw [STARTl_length] at hdec
    have hocc : startsWithL ENDl (t.drop q) = true := by
      rw [hsplit, ← h1, hdec, ← List.append_assoc, end_start_overlap,
        List.append_assoc]
      exact startsWithL_append_left _ (startsWithL_self ENDl)
    have := occCount_two ENDl_ne_nil (show q < j - 29 by omega) hocc hswe
    omega

/-! ### Claim C3: single-block invariant -/

/-- C3 (amended): when no directive contains a marker or a newline, one
merge yields text with exactly one start-marker and one end-marker
occurrence in the two well-formed situations: the input contains exactly
one occurrence of each marker, or the input contains no marker occurrence
and no legacy directive.  (A document with multiple marker pairs is not
collapsed — see the counterexample.) -/
theorem claimC3_amended (t : List Char) (dirs : List (List Char))
    (hdirs : ∀ d ∈ dirs,
      occCount STARTl d = 0 ∧ occCount ENDl d = 0 ∧ ¬ '\n' ∈ d) :
    (occCount STARTl t = 1 → occCount ENDl t = 1 →
      occCount STARTl (mergeText t dirs).1 = 1 ∧
      occCount ENDl (mergeText t dirs).1 = 1) ∧
    (occCount STARTl t = 0 → occCount ENDl t = 0 → stripLegacy t = t →
      occCount STARTl (mergeText t dirs).1 = 1 ∧
      occCount ENDl (mergeText t dirs).1 = 1) := by
  constructor
  · intro h1s h1e
    have hcs := containsSub_of_occ_one STARTl_ne_nil h1s
    have hce := containsSub_of_occ_one ENDl_ne_nil h1e
    cases hbm : blockMatch t with
    | none =>
      rw [mergeText_nomatch dirs hcs hce hbm]
      exact ⟨h1s, h1e⟩
    | some ij =>
      obtain ⟨i, j⟩ := ij
      obtain ⟨hs, hsw, hmin, hswe, hij, hjle, hemin⟩ := blockMatch_unpack hbm
      have hi := findPos_le hs
      rw [mergeText_marked dirs hbm]
      by_cases heq : (t.drop i).take (j - i) = managedBlock dirs
      · rw [if_pos heq]
        exact ⟨h1s, h1e⟩
      · rw [if_neg heq]
        dsimp only
        rw [List.append_assoc]
        have hmbv := startsWithL_managedBlock dirs (t.drop j)
        have hstr1S : ∀ q < (t.take i).length,
            startsWithL STARTl
              ((t.take i ++ (managedBlock dirs ++ t.drop j)).drop q) = true →
            startsWithL STARTl ((t.take i).drop q) = true := by
          intro q hq h
          rw [hout_of_take _ hsw hmin hi hmbv q hq] at h
          exact absurd h (by simp)
        constructor
        · rw [occCount_append STARTl_ne_nil _ _ hstr1S,
            occCount_append STARTl_ne_nil _ _
              (hstr_mb_v_start dirs hsw hswe hij h1s),
            occ_front_zero STARTl_ne_nil h1s hsw (Nat.le_refl i),
            occ_start_mb dirs (fun d hd => (hdirs d hd).1),
            occ_suffix_zero STARTl_ne_nil h1s hsw (show i < j by omega)]
        · rw [occCount_append ENDl_ne_nil _ _
              (hstr_u_end dirs hsw hswe hij hi h1e),
            occCount_append ENDl_ne_nil _ _
              (hstr_mb_v_end dirs hswe hij h1e),
            occ_front_zero ENDl_ne_nil h1e hswe (show i ≤ j - 29 by omega),
            occ_end_mb dirs (fun d hd => (hdirs d hd).2.1),
            occ_suffix_zero ENDl_ne_nil h1e hswe (show j - 29 < j by omega)]
  · intro h0s h0e hstrip
    have hncs := containsSub_false_of_occ_zero STARTl_ne_nil h0s
    have hmk : (containsSub STARTl t && containsSub ENDl t) = false := by
      rw [hncs]
      rfl
    have hallS := not_containsSub hncs
    have hallE := not_containsSub (containsSub_false_of_occ_zero ENDl_ne_nil h0e)
    have hAS : ∀ e, occCount STARTl (t.take e) = 0 := fun e =>
      (occCount_eq_zero_iff STARTl_ne_nil _).2 (sw_take_all_false hallS)
    have hAE : ∀ e, occCount ENDl (t.take e) = 0 := fun e =>
      (occCount_eq_zero_iff ENDl_ne_nil _).2 (sw_take_all_false hallE)
    have hBS : ∀ e, occCount STARTl (t.drop e) = 0 := fun e =>
      (occCount_eq_zero_iff STARTl_ne_nil _).2
        (fun q => by rw [List.drop_drop]; exact hallS (e + q))
    have hBE : ∀ e, occCount ENDl (t.drop e) = 0 := fun e =>
      (occCount_eq_zero_iff ENDl_ne_nil _).2
        (fun q => by rw [List.drop_drop]; exact hallE (e + q))
    cases himp : findImport (stripLegacy t) with
    | some idx =>
      rw [mergeText_fresh_import dirs hmk himp, hstrip]
      dsimp only
      constructor
      · rw [occCount_append_nl STARTl_ne_nil nl_not_mem_STARTl,
          occCount_append_nl STARTl_ne_nil nl_not_mem_STARTl,
          occ_start_mb dirs (fun d hd => (hdirs d hd).1), hAS, hBS]
      · rw [occCount_append_nl ENDl_ne_nil nl_not_mem_ENDl,
          occCount_append_nl ENDl_ne_nil nl_not_mem_ENDl,
          occ_end_mb dirs (fun d hd => (hdirs d hd).2.1), hAE, hBE]
    | none =>
      rw [mergeText_fresh_noimport dirs hmk himp, hstrip]
      dsimp only
      constructor
      · rw [occCount_append_nl STARTl_ne_nil nl_not_mem_STARTl,
          occ_start_mb dirs (fun d hd => (hdirs d hd).1),
          occCount_cons_nl STARTl_ne_nil nl_not_mem_STARTl, h0s]
      · rw [occCount_append_nl ENDl_ne_nil nl_not_mem_ENDl,
          occ_end_mb dirs (fun d hd => (hdirs d hd).2.1),
          occCount_cons_nl ENDl_ne_nil nl_not_mem_ENDl, h0e]

set_option maxRecDepth 8000 in
/-- C3 counterexample: a document already containing two well-formed
managed blocks is not collapsed — the merge leaves both in place (the
first block is already up to date), so the result has two start-marker
occurrences, refuting the claim as stated. -/
theorem claimC3_counterexample :
    occCount STARTl (mergeText (managedBlock [] ++ '\n' :: managedBlock []) []).1 = 2 := by
  decide

/-- C3 witness: the amended single-block property applied to a document
holding exactly one managed block, with one directive. -/
theorem claimC3_witness :
    occCount STARTl (mergeText (managedBlock []) ["@source \"../libs/ui\";".toList]).1 = 1 ∧
    occCount ENDl (mergeText (managedBlock []) ["@source \"../libs/ui\";".toList]).1 = 1 :=
  (claimC3_amended (managedBlock []) ["@source \"../libs/ui\";".toList]
    (by decide)).1 (by decide) (by decide)

/-! ### Lemmas on the dependency collector -/

theorem mem_addUnique {x y : String} {l : List String} (h : x ∈ addUnique y l) :
    x ∈ l ∨ x = y := by
  unfold addUnique at h
  by_cases hy : y ∈ l
  · rw [if_pos hy] at h
    exact Or.inl h
  · rw [if_neg hy, List.mem_append] at h
    rcases h with h | h
    · exact Or.inl h
    · rw [List.mem_singleton] at h
      exact Or.inr h

theorem mem_foldl_addUnique {x : String} :
    ∀ (es : List DependencyEdge) (d : List String),
      x ∈ es.foldl (fun acc e => addUnique e.target acc) d →
      x ∈ d ∨ x ∈ es.map (·.target) := by
  intro es
  induction es with
  | nil =>
    intro d h
    exact Or.inl h
  | cons e es ih =>
    intro d h
    rcases ih (addUnique e.target d) h with h' | h'
    · rcases mem_addUnique h' with h'' | h''
      · exact Or.inl h''
      · refine Or.inr ?_
        rw [List.map_cons, h'']
        exact List.mem_cons_self _ _
    · refine Or.inr ?_
      rw [List.map_cons]
      exact List.mem_cons_of_mem _ h'

theorem lookup_mem {k : String} {v : List DependencyEdge}
    {l : List (String × List DependencyEdge)}
    (h : List.lookup k l = some v) : (k, v) ∈ l := by
  induction l with
  | nil => simp [List.lookup] at h
  | cons p rest ih =>
    obtain ⟨a, b⟩ := p
    by_cases hk : k = a
    · subst hk
      simp only [List.lookup, beq_self_eq_true] at h
      simp only [Option.some.injEq] at h
      rw [h]
      exact List.mem_cons_self _ _
    · have hb : (k == a) = false := beq_eq_false_iff_ne.mpr hk
      simp only [List.lookup, hb] at h
      exact List.mem_cons_of_mem _ (ih h)

theorem mem_foldr_targets {x : String} {l : List (String × List DependencyEdge)}
    {pr : String × List DependencyEdge} (hpr : pr ∈ l)
    (hx : x ∈ pr.2.map (·.target)) :
    x ∈ l.foldr (fun p acc => p.2.map (·.target) ++ acc) [] := by
  induction l with
  | nil => simp at hpr
  | cons a rest ih =>
    rw [List.foldr_cons, List.mem_append]
    rcases List.mem_cons.1 hpr with h | h
    · subst h
      exact Or.inl hx
    · exact Or.inr (ih h)

theorem depsOf_sub_allTargets {g : ProjectGraph} {n x : String}
    (h : x ∈ (depsOf g n).map (·.target)) : x ∈ allTargets g := by
  unfold depsOf at h
  cases hl : List.lookup n g.dependencies with
  | none =>
    rw [hl] at h
    simp at h
  | some es =>
    rw [hl] at h
    exact mem_foldr_targets (lookup_mem hl) h

theorem collectLoop_mem {g : ProjectGraph} :
    ∀ (fuel : Nat) (q v d : List String) (x : String),
      x ∈ collectLoop g fuel q v d → x ∈ d ∨ x ∈ allTargets g := by
  intro fuel
  induction fuel with
  | zero =>
    intro q v d x h
    exact Or.inl h
  | succ f ih =>
    intro q v d x h
    cases q with
    | nil => exact Or.inl h
    | cons c rest =>
      have e : collectLoop g (f + 1) (c :: rest) v d =
          if c = "" then collectLoop g f rest v d
          else if c ∈ v then collectLoop g f rest v d
          else collectLoop g f (rest ++ (depsOf g c).map (·.target)) (c :: v)
            ((depsOf g c).foldl (fun acc e => addUnique e.target acc) d) := rfl
      rw [e] at h
      by_cases hc : c = ""
      · rw [if_pos hc] at h
        exact ih _ _ _ _ h
      · rw [if_neg hc] at h
        by_cases hv : c ∈ v
        · rw [if_pos hv] at h
          exact ih _ _ _ _ h
        · rw [if_neg hv] at h
          rcases ih _ _ _ _ h with h' | h'
          · rcases mem_foldl_addUnique _ _ h' with h'' | h''
            · exact Or.inl h''
            · exact Or.inr (depsOf_sub_allTargets h'')
          · exact Or.inr h'

/-! ### Claim C2: the origin in its own dependency set -/

/-- C2 counterexample: with a self-loop edge `p → p` the collector's result
contains the origin `p` itself, refuting "never contains the origin name
itself, even … through a cycle or a self-loop edge". -/
theorem claimC2_counterexample :
    "p" ∈ collectDependencies "p"
      ⟨[("p", ⟨"p", ⟨"apps/p"⟩⟩)], [("p", [⟨"p", "p"⟩])]⟩ := by
  decide

/-- C2 (amended): the collector's result can only contain targets of edges
of the graph, so whenever the origin is not the target of any edge — in
particular whenever it is not reachable from itself through a cycle or a
self-loop — the result does not contain the origin. -/
theorem claimC2_amended (p : String) (g : ProjectGraph)
    (h : ¬ p ∈ allTargets g) : ¬ p ∈ collectDependencies p g := by
  intro hmem
  unfold collectDependencies at hmem
  rcases collectLoop_mem _ _ _ _ _ hmem with h' | h'
  · simp at h'
  · exact h h'

/-- C2 witness: the amended exclusion on a concrete one-edge graph whose
only edge leaves the origin. -/
theorem claimC2_witness :
    ¬ "p" ∈ collectDependencies "p" ⟨[], [("p", [⟨"p", "q"⟩])]⟩ :=
  claimC2_amended _ _ (by decide)

/-! ### Claim C9: termination of the collector loop -/

theorem sum_filter_insert (f : String → Nat) :
    ∀ (l : List String), l.Nodup → ∀ (v : List String) (c : String), ¬ c ∈ v →
      ((l.filter (fun n => ¬ n ∈ c :: v)).map f).sum +
        (if c ∈ l then f c else 0) =
      ((l.filter (fun n => ¬ n ∈ v)).map f).sum := by
  intro l
  induction l with
  | nil =>
    intro _ v c _
    simp
  | cons a l ih =>
    intro hnd v c hc
    rw [List.nodup_cons] at hnd
    obtain ⟨ha, hnd'⟩ := hnd
    rw [List.filter_cons, List.filter_cons]
    by_cases hac : a = c
    · subst hac
      have h1 : decide (¬ a ∈ a :: v) = false := by simp
      have h2 : decide (¬ a ∈ v) = true := by simp [hc]
      rw [h1, h2]
      simp only [Bool.false_eq_true, if_false, if_true]
      rw [if_pos (List.mem_cons_self a l), List.map_cons, List.sum_cons]
      have hfc : l.filter (fun n => decide (¬ n ∈ a :: v)) =
          l.filter (fun n => decide (¬ n ∈ v)) := by
        apply List.filter_congr
        intro x hx
        have hxc : ¬ x = a := fun hxc => ha (hxc ▸ hx)
        simp [List.mem_cons, hxc]
      rw [hfc]
      omega
    · have hcl : (if c ∈ a :: l then f c else 0) = (if c ∈ l then f c else 0) := by
        by_cases h : c ∈ l
        · rw [if_pos (List.mem_cons_of_mem _ h), if_pos h]
        · rw [if_neg ?hnc, if_neg h]
          case hnc =>
            intro hmem
            rcases List.mem_cons.1 hmem with he | he
            · exact hac he.symm
            · exact h he
      rw [hcl]
      have hmv : decide (¬ a ∈ c :: v) = decide (¬ a ∈ v) := by
        simp [List.mem_cons, hac]
      rw [hmv]
      by_cases hav : a ∈ v
      · have d1 : decide (¬ a ∈ v) = false := by simp [hav]
        rw [d1]
        simp only [Bool.false_eq_true, if_false]
        exact ih hnd' v c hc
      · have d1 : decide (¬ a ∈ v) = true := by simp [hav]
        rw [d1]
        simp only [if_true]
        rw [List.map_cons, List.sum_cons, List.map_cons, List.sum_cons]
        have hrec := ih hnd' v c hc
        omega

theorem requiredFuel_step {g : ProjectGraph} {v : List String} {c : String}
    (hc : ¬ c ∈ v) :
    (((depSources g).filter (fun n => ¬ n ∈ c :: v)).map
        (fun n => (depsOf g n).length)).sum + (depsOf g c).length =
      (((depSources g).filter (fun n => ¬ n ∈ v)).map
        (fun n => (depsOf g n).length)).sum := by
  have h := sum_filter_insert (fun n => (depsOf g n).length)
    (depSources g) (List.nodup_dedup _) v c hc
  by_cases hcl : c ∈ depSources g
  · rw [if_pos hcl] at h
    exact h
  · rw [if_neg hcl] at h
    have hdz : depsOf g c = [] := by
      unfold depsOf
      cases hl : List.lookup c g.dependencies with
      | none => rfl
      | some es =>
        exfalso
        apply hcl
        unfold depSources
        rw [List.mem_dedup, List.mem_map]
        exact ⟨(c, es), lookup_mem hl, rfl⟩
    rw [hdz]
    simpa using h

theorem collectLoop_stable {g : ProjectGraph} :
    ∀ (fuel : Nat) (q v d : List String), requiredFuel g q v ≤ fuel →
      collectLoop g (fuel + 1) q v d = collectLoop g fuel q v d := by
  intro fuel
  induction fuel with
  | zero =>
    intro q v d h
    unfold requiredFuel at h
    cases q with
    | nil => rfl
    | cons a q' =>
      exfalso
      rw [List.length_cons] at h
      omega
  | succ f ih =>
    intro q v d h
    cases q with
    | nil => rfl
    | cons c rest =>
      have e1 : collectLoop g (f + 1 + 1) (c :: rest) v d =
          if c = "" then collectLoop g (f + 1) rest v d
          else if c ∈ v then collectLoop g (f + 1) rest v d
          else collectLoop g (f + 1) (rest ++ (depsOf g c).map (·.target)) (c :: v)
            ((depsOf g c).foldl (fun acc e => addUnique e.target acc) d) := rfl
      have e2 : collectLoop g (f + 1) (c :: rest) v d =
          if c = "" then collectLoop g f rest v d
          else if c ∈ v then collectLoop g f rest v d
          else collectLoop g f (rest ++ (depsOf g c).map (·.target)) (c :: v)
            ((depsOf g c).foldl (fun acc e => addUnique e.target acc) d) := rfl
      rw [e1, e2]
      unfold requiredFuel at h
      rw [List.length_cons] at h
      by_cases hc : c = ""
      · rw [if_pos hc, if_pos hc]
        apply ih
        unfold requiredFuel
        omega
      · rw [if_neg hc, if_neg hc]
        by_cases hv : c ∈ v
        · rw [if_pos hv, if_pos hv]
          apply ih
          unfold requiredFuel
          omega
        · rw [if_neg hv, if_neg hv]
          apply ih
          unfold requiredFuel
          rw [List.length_append, List.length_map]
          have hstep := requiredFuel_step (g := g) (v := v) (c := c) hv
          omega

/-- C9: the collector's worklist loop terminates on every finite graph —
cycles and self-loops included: its fuel-indexed unfolding is stable at
the bound `requiredFuel` (queue length plus out-degrees of unvisited
sources), so any further fuel computes the same `collectDependencies`
result; the visited set guarantees each name is expanded at most once. -/
theorem claimC9_terminates (g : ProjectGraph) (p : String) (k : Nat) :
    collectLoop g (requiredFuel g [p] [] + k) [p] [] [] =
      collectDependencies p g := by
  induction k with
  | zero => rfl
  | succ n ih =>
    have e : requiredFuel g [p] [] + (n + 1) = (requiredFuel g [p] [] + n) + 1 := by
      omega
    rw [e, collectLoop_stable _ _ _ _ (by omega), ih]

/-! ### Claim C6: frame property of the replacement -/

/-- C6: for a text containing exactly one managed block (one occurrence of
each marker, start before end, witnessed by the block match `(i, j)`), the
merge changes only the block region: the bytes strictly before the start
marker and strictly after the end marker are unchanged (the suffix starts
at `i + |new block|` in the output and at `j` in the input). -/
theorem claimC6_frame (t : List Char) (dirs : List (List Char)) (i j : Nat)
    (h1 : occCount STARTl t = 1) (h2 : occCount ENDl t = 1)
    (hbm : blockMatch t = some (i, j)) :
    (mergeText t dirs).1.take i = t.take i ∧
    (mergeText t dirs).1.drop (i + (managedBlock dirs).length) = t.drop j := by
  obtain ⟨hs, hsw, hmin, hswe, hij, hjle, hemin⟩ := blockMatch_unpack hbm
  have hi := findPos_le hs
  rw [mergeText_marked dirs hbm]
  by_cases heq : (t.drop i).take (j - i) = managedBlock dirs
  · rw [if_pos heq]
    dsimp only
    have hlen : j - i = (managedBlock dirs).length := by
      have hl := congrArg List.length heq
      rw [List.length_take, List.length_drop] at hl
      omega
    refine ⟨rfl, ?_⟩
    rw [← hlen]
    have e : i + (j - i) = j := by omega
    rw [e]
  · rw [if_neg heq]
    dsimp only
    have hl : (t.take i).length = i := by
      rw [List.length_take]
      omega
    constructor
    · rw [List.append_assoc]
      exact List.take_left' hl
    · rw [List.append_assoc,
        drop_append_ge (show (t.take i).length ≤ i + (managedBlock dirs).length by
          rw [hl]; omega)]
      rw [hl]
      have e : i + (managedBlock dirs).length - i = (managedBlock dirs).length := by
        omega
      rw [e, drop_append_self]

set_option maxRecDepth 8000 in
/-- C6 witness: the frame property on a document that is exactly one empty
managed block, updated to hold one directive. -/
theorem claimC6_witness :
    (mergeText (managedBlock []) ["@source \"../x\";".toList]).1.take 0 =
      (managedBlock []).take 0 ∧
    (mergeText (managedBlock []) ["@source \"../x\";".toList]).1.drop
      (0 + (managedBlock ["@source \"../x\";".toList]).length) =
      (managedBlock []).drop 61 :=
  claimC6_frame _ _ 0 61 (by decide) (by decide) (by decide)

/-! ### Claim C5: placement of a freshly inserted block -/

/-- C5 (amended): on a marker-free text with no legacy directives, if an
anchor line is found by `findImport` and a newline occurs at or after it
(`n` is its offset), the block is inserted immediately after that newline:
everything up to and including that newline and everything after it is
preserved verbatim, with a blank separator around the block.  If no
anchor line exists, the block is prepended followed by a blank separator.
(Without the newline the code inserts at the top instead; see the
counterexample.) -/
theorem claimC5_amended (t : List Char) (dirs : List (List Char))
    (hms : containsSub STARTl t = false) (hme : containsSub ENDl t = false)
    (hstrip : stripLegacy t = t) :
    (∀ idx n, findImport t = some idx → findSub ['\n'] (t.drop idx) = some n →
      mergeText t dirs =
        (t.take (idx + n + 1) ++
          '\n' :: (managedBlock dirs ++ '\n' :: t.drop (idx + n + 1)), true)) ∧
    (findImport t = none →
      mergeText t dirs = (managedBlock dirs ++ '\n' :: '\n' :: t, true)) := by
  have hmk : (containsSub STARTl t && containsSub ENDl t) = false := by
    rw [hms]
    rfl
  constructor
  · intro idx n himp hnl
    have himp' : findImport (stripLegacy t) = some idx := by
      rw [hstrip]
      exact himp
    rw [mergeText_fresh_import dirs hmk himp', hstrip]
    unfold importEnd
    rw [hnl]
  · intro himp
    have himp' : findImport (stripLegacy t) = none := by
      rw [hstrip]
      exact himp
    rw [mergeText_fresh_noimport dirs hmk himp', hstrip]

set_option maxRecDepth 8000 in
/-- C5 counterexample: when the matched anchor line is not followed by any
newline the computed insertion index is zero, and the block lands before
the anchor instead of immediately after it: on a single-line file holding
only a newline-less at-import statement the output starts with a newline
and the block, with the original line pushed to the end, refuting the
claim as stated. -/
theorem claimC5_counterexample :
    mergeText "@import 'x';".toList ["@source \"../libs/ui\";".toList] =
      ('\n' :: (managedBlock ["@source \"../libs/ui\";".toList] ++
        '\n' :: "@import 'x';".toList), true) ∧
    startsWithL "@import".toList
      (mergeText "@import 'x';".toList ["@source \"../libs/ui\";".toList]).1 = false ∧
    findImport "@import 'x';".toList = some 0 := by
  decide

set_option maxRecDepth 8000 in
/-- C5 witness: insertion right after a newline-terminated tailwind import
line, preserving the import line and the rest of the file. -/
theorem claimC5_witness :
    mergeText "@import 'tailwindcss';\nbody{}".toList
        ["@source \"../libs/ui\";".toList] =
      ("@import 'tailwindcss';\nbody{}".toList.take 23 ++
        '\n' :: (managedBlock ["@source \"../libs/ui\";".toList] ++
          '\n' :: "@import 'tailwindcss';\nbody{}".toList.drop 23), true) :=
  (claimC5_amended _ _ (by decide) (by decide) (by decide)).1 0 22
    (by decide) (by decide)

/-! ### Claim C1: empty directive list on a marker-free file -/

/-- On a marker-free text the merge with an empty directive list still
inserts the empty managed block and reports changed. -/
theorem mergeText_empty_fresh (t : List Char)
    (hms : containsSub STARTl t = false) (hme : containsSub ENDl t = false) :
    (mergeText t []).2 = true ∧
    containsSub (managedBlock []) (mergeText t []).1 = true ∧
    (mergeText t []).1 ≠ t := by
  have hmk : (containsSub STARTl t && containsSub ENDl t) = false := by
    rw [hms]
    rfl
  have hkey : containsSub (managedBlock []) (mergeText t []).1 = true ∧
      containsSub STARTl (mergeText t []).1 = true ∧ (mergeText t []).2 = true := by
    cases himp : findImport (stripLegacy t) with
    | some idx =>
      rw [mergeText_fresh_import [] hmk himp]
      dsimp only
      set A := (stripLegacy t).take (importEnd (stripLegacy t) idx) with hA
      set B := (stripLegacy t).drop (importEnd (stripLegacy t) idx) with hB
      have hdrop : (A ++ '\n' :: (managedBlock [] ++ '\n' :: B)).drop (A.length + 1) =
          managedBlock [] ++ '\n' :: B := by
        have e : A ++ '\n' :: (managedBlock [] ++ '\n' :: B) =
            (A ++ ['\n']) ++ (managedBlock [] ++ '\n' :: B) := by simp
        rw [e, drop_append_ge (by simp)]
        have e2 : A.length + 1 - (A ++ ['\n']).length = 0 := by simp
        rw [e2, List.drop_zero]
      refine ⟨?_, ?_, rfl⟩
      · apply containsSub_of_occ (j := A.length + 1)
        rw [hdrop]
        exact startsWithL_append_left _ (startsWithL_self _)
      · apply containsSub_of_occ (j := A.length + 1)
        rw [hdrop]
        exact startsWithL_managedBlock [] _
    | none =>
      rw [mergeText_fresh_noimport [] hmk himp]
      dsimp only
      refine ⟨?_, ?_, rfl⟩
      · apply containsSub_of_occ (j := 0)
        rw [List.drop_zero]
        exact startsWithL_append_left _ (startsWithL_self _)
      · apply containsSub_of_occ (j := 0)
        rw [List.drop_zero]
        exact startsWithL_managedBlock [] _
  refine ⟨hkey.2.2, hkey.1, ?_⟩
  intro hc
  have := hkey.2.1
  rw [hc, hms] at this
  exact absurd this (by simp)

/-- C1 (amended): for a project whose dependency set is empty and whose
target file contains neither marker line, `updateSourceDirectives` does
not leave the file untouched: it writes the file with the empty managed
block inserted (start marker, newline, end marker with no directives
between) and reports changed. -/
theorem claimC1_amended (tree : List (String × List Char)) (p path : String)
    (g : ProjectGraph) (hdeps : collectDependencies p g = [])
    (hms : containsSub STARTl ((treeRead tree path).getD []) = false)
    (hme : containsSub ENDl ((treeRead tree path).getD []) = false) :
    (updateSourceDirectives tree p path g).2 = true ∧
    treeRead (updateSourceDirectives tree p path g).1 path =
      some (mergeText ((treeRead tree path).getD []) []).1 ∧
    containsSub (managedBlock []) (mergeText ((treeRead tree path).getD []) []).1 = true ∧
    (mergeText ((treeRead tree path).getD []) []).1 ≠ (treeRead tree path).getD [] := by
  have hm := mergeText_empty_fresh ((treeRead tree path).getD []) hms hme
  have hupd : updateSourceDirectives tree p path g =
      (treeWrite tree path (mergeText ((treeRead tree path).getD []) []).1, true) := by
    have hren : renderDirectives g (dirnameStr path) [] = [] := by
      unfold renderDirectives
      rw [List.filterMap_nil, List.mergeSort_nil]
    unfold updateSourceDirectives
    dsimp only
    rw [hdeps, hren, hm.1]
    rfl
  rw [hupd]
  refine ⟨rfl, ?_, hm.2.1, hm.2.2⟩
  unfold treeRead treeWrite
  simp [List.lookup]

/-- C1 counterexample: a project with no dependencies and a marker-free
stylesheet holding only the tailwind import: the merge does not leave the
text untouched and does not report unchanged — it inserts the empty
managed block after the import's newline and reports changed, refuting
the claim as stated. -/
theorem claimC1_counterexample :
    mergeText "@import 'tailwindcss';\n".toList [] =
      ("@import 'tailwindcss';\n".toList ++
        '\n' :: (managedBlock [] ++ ['\n']), true) ∧
    ("@import 'tailwindcss';\n".toList ++
        '\n' :: (managedBlock [] ++ ['\n'])) ≠ "@import 'tailwindcss';\n".toList := by
  decide

/-- C1 witness: the amended behaviour on a one-file tree whose stylesheet
has no markers, for a project with no outgoing edges. -/
theorem claimC1_witness :
    (updateSourceDirectives [("s.css", "body { }\n".toList)] "app" "s.css"
      ⟨[], []⟩).2 = true ∧
    treeRead (updateSourceDirectives [("s.css", "body { }\n".toList)] "app" "s.css"
        ⟨[], []⟩).1 "s.css" =
      some (mergeText ((treeRead [("s.css", "body { }\n".toList)] "s.css").getD []) []).1 ∧
    containsSub (managedBlock [])
      (mergeText ((treeRead [("s.css", "body { }\n".toList)] "s.css").getD []) []).1 = true ∧
    (mergeText ((treeRead [("s.css", "body { }\n".toList)] "s.css").getD []) []).1 ≠
      (treeRead [("s.css", "body { }\n".toList)] "s.css").getD [] :=
  claimC1_amended _ _ _ _ (by decide) (by decide) (by decide)

/-! ### Claim C8: missing target file content -/

/-- C8: when the file abstraction has no content for the target path, the
merge treats the current document as empty and proceeds through the
fresh-insertion path, prepending the rendered block followed by the blank
separator, rather than failing. -/
theorem claimC8_missing_file (tree : List (String × List Char)) (p path : String)
    (g : ProjectGraph) (hread : treeRead tree path = none) :
    updateSourceDirectives tree p path g =
      (treeWrite tree path
        (managedBlock (renderDirectives g (dirnameStr path)
          (collectDependencies p g)) ++ ['\n', '\n']), true) := by
  unfold updateSourceDirectives
  dsimp only
  rw [hread, Option.getD_none]
  have hmk : (containsSub STARTl ([] : List Char) &&
      containsSub ENDl ([] : List Char)) = false := by decide
  have himp : findImport (stripLegacy ([] : List Char)) = none := by decide
  rw [mergeText_fresh_noimport _ hmk himp]
  rfl

/-- C8 witness: the missing-content behaviour on an empty tree and empty
graph. -/
theorem claimC8_witness :
    updateSourceDirectives [] "app" "apps/app/src/styles.css" ⟨[], []⟩ =
      (treeWrite [] "apps/app/src/styles.css"
        (managedBlock (renderDirectives ⟨[], []⟩
          (dirnameStr "apps/app/src/styles.css")
          (collectDependencies "app" ⟨[], []⟩)) ++ ['\n', '\n']), true) :=
  claimC8_missing_file _ _ _ _ rfl

/-! ### Claim C10: spurious change signal on a backwards marker pair -/

set_option maxRecDepth 8000 in
/-- C10: on a document where the end marker precedes the start marker both
`includes` checks succeed but the block regex finds no match, so the
`replace` is a no-op: the operation writes text byte-for-byte identical
to the input and still returns changed = true (the tree gains an entry
with unchanged content). -/
theorem claimC10_spurious_change :
    updateSourceDirectives [("apps/demo/src/styles.css", ENDl ++ '\n' :: STARTl)]
      "demo" "apps/demo/src/styles.css" ⟨[], []⟩ =
      ([("apps/demo/src/styles.css", ENDl ++ '\n' :: STARTl),
        ("apps/demo/src/styles.css", ENDl ++ '\n' :: STARTl)], true) := by
  decide

/-! ### Claim C7: the rendered directive list -/

theorem lexLe_total : ∀ a b : List Char, (lexLe a b || lexLe b a) = true := by
  intro a
  induction a with
  | nil =>
    intro b
    simp [lexLe]
  | cons x as ih =>
    intro b
    cases b with
    | nil => simp [lexLe]
    | cons y bs =>
      by_cases hxy : x < y
      · simp [lexLe, hxy]
      · by_cases hyx : y < x
        · simp [lexLe, hxy, hyx]
        · simp only [lexLe, if_neg hxy, if_neg hyx]
          exact ih bs

theorem lexLe_trans :
    ∀ a b c : List Char, lexLe a b = true → lexLe b c = true → lexLe a c = true := by
  intro a
  induction a with
  | nil =>
    intro b c _ _
    rfl
  | cons x as ih =>
    intro b c hab hbc
    cases b with
    | nil => simp [lexLe] at hab
    | cons y bs =>
      cases c with
      | nil => simp [lexLe] at hbc
      | cons z cs =>
        by_cases hxy : x < y
        · by_cases hyz : y < z
          · have hxz : x < z := lt_trans hxy hyz
            simp [lexLe, hxz]
          · by_cases hzy : z < y
            · simp [lexLe, if_neg hyz, hzy] at hbc
            · have hyz' : y = z := le_antisymm (not_lt.1 hzy) (not_lt.1 hyz)
              subst hyz'
              simp [lexLe, hxy]
        · by_cases hyx : y < x
          · simp [lexLe, if_neg hxy, hyx] at hab
          · have hxy' : x = y := le_antisymm (not_lt.1 hyx) (not_lt.1 hxy)
            subst hxy'
            simp only [lexLe, if_neg hxy, if_neg hyx] at hab
            by_cases hxz : x < z
            · simp [lexLe, hxz]
            · by_cases hzx : z < x
              · simp [lexLe, if_neg hxz, hzx] at hbc
              · have hxz' : x = z := le_antisymm (not_lt.1 hzx) (not_lt.1 hxz)
                subst hxz'
                simp only [lexLe, if_neg hxz] at hbc ⊢
                exact ih bs cs hab hbc

theorem lexLe_antisymm :
    ∀ a b : List Char, lexLe a b = true → lexLe b a = true → a = b := by
  intro a
  induction a with
  | nil =>
    intro b hab hba
    cases b with
    | nil => rfl
    | cons y bs => simp [lexLe] at hba
  | cons x as ih =>
    intro b hab hba
    cases b with
    | nil => simp [lexLe] at hab
    | cons y bs =>
      by_cases hxy : x < y
      · simp [lexLe, if_neg (asymm hxy), hxy] at hba
      · by_cases hyx : y < x
        · simp [lexLe, if_neg hxy, hyx] at hab
        · have hxy' : x = y := le_antisymm (not_lt.1 hyx) (not_lt.1 hxy)
          subst hxy'
          simp only [lexLe, if_neg hxy] at hab hba
          rw [ih bs hab hba]

instance lexLeAntisymm : IsAntisymm (List Char) (fun a b => lexLe a b = true) :=
  ⟨fun a b => lexLe_antisymm a b⟩

theorem length_filterMap_eq_filter (f : String → Option (List Char)) :
    ∀ l : List String,
      (l.filterMap f).length = (l.filter (fun d => (f d).isSome)).length := by
  intro l
  induction l with
  | nil => rfl
  | cons a l ih =>
    rw [List.filterMap_cons, List.filter_cons]
    cases hf : f a with
    | none =>
      dsimp only
      simp only [Option.isSome_none, Bool.false_eq_true, if_false]
      exact ih
    | some b =>
      dsimp only
      simp only [Option.isSome_some, if_true, List.length_cons]
      rw [ih]

/-- C7: for any dependency set (duplicate-free name list) the rendered
directive list is sorted lexicographically by the rendered string, is a
permutation of one rendered entry per dependency (entries whose node is
missing or rootless are dropped), has exactly as many entries as there are
renderable dependencies, contains the rendered directive of every
renderable dependency, and is invariant under reordering of the set's
iteration order. -/
theorem claimC7_render (g : ProjectGraph) (cssDir : String) (deps : List String)
    (hnd : deps.Nodup) :
    List.Sorted (fun a b => lexLe a b = true) (renderDirectives g cssDir deps) ∧
    (renderDirectives g cssDir deps).Perm (deps.filterMap (renderOne g cssDir)) ∧
    (renderDirectives g cssDir deps).length =
      (deps.filter (fun d => (renderOne g cssDir d).isSome)).length ∧
    (∀ d ∈ deps, ∀ r, renderOne g cssDir d = some r →
      r ∈ renderDirectives g cssDir deps) ∧
    (∀ deps2 : List String, deps2.Perm deps →
      renderDirectives g cssDir deps2 = renderDirectives g cssDir deps) := by
  have hsorted : ∀ l : List (List Char),
      List.Sorted (fun a b => lexLe a b = true) (l.mergeSort lexLe) := fun l =>
    List.sorted_mergeSort (fun a b c => lexLe_trans a b c) lexLe_total l
  refine ⟨hsorted _, List.mergeSort_perm _ lexLe, ?_, ?_, ?_⟩
  · unfold renderDirectives
    rw [(List.mergeSort_perm _ lexLe).length_eq]
    exact length_filterMap_eq_filter _ deps
  · intro d hd r hr
    have hmem : r ∈ deps.filterMap (renderOne g cssDir) :=
      List.mem_filterMap.2 ⟨d, hd, hr⟩
    exact ((List.mergeSort_perm _ lexLe).mem_iff).2 hmem
  · intro deps2 hperm
    apply List.eq_of_perm_of_sorted ?_ (hsorted _) (hsorted _)
    exact (List.mergeSort_perm _ lexLe).trans
      ((hperm.filterMap _).trans (List.mergeSort_perm _ lexLe).symm)

/-- C7 witness: the rendered list for a two-node graph with the
dependencies iterated in reverse name order is sorted. -/
theorem claimC7_witness :
    List.Sorted (fun a b => lexLe a b = true)
      (renderDirectives
        ⟨[("a", ⟨"a", ⟨"libs/a"⟩⟩), ("b", ⟨"b", ⟨"libs/b"⟩⟩)], []⟩
        "apps/app/src" ["b", "a"]) :=
  (claimC7_render _ _ _ (by decide)).1

end NxTailwindSync
